import Mathlib

/-!
Verification of the pyth-agent account-graph synchronizer (`src/agent/solana/oracle.rs`)
and the dashboard view builder (`src/agent/dashboard.rs`) against its specification.

The Rust code is shallowly embedded: 32-byte Solana `Pubkey`s are injected into `Nat`
(with `Pubkey::default()`, the all-zero sentinel, mapped to `0`); `HashMap`/`BTreeMap`
are modelled as association lists with replace-on-insert semantics; the asynchronous
RPC client is modelled as an environment of partial functions (a `none` result collapses
an RPC failure and a decode failure, both of which surface as `Err` in the Rust code);
channel sends to the global store are modelled as an accumulated message list; the
unbounded `while` loops over on-chain linked lists take an explicit fuel parameter,
with exhausted fuel (`FetchOut.spin`) modelling non-termination.
-/

namespace PythAgent

/-! ## Association-list maps (model of `std::collections::HashMap` / `BTreeMap`) -/

/-- A keyed map, modelled as an association list. Maps built by this development
start from `[]` and are only modified through `mapInsert` / `mapEraseKey`, so their
keys stay pairwise distinct, matching `HashMap`/`BTreeMap`. -/
abbrev Map (K V : Type) := List (K × V)

/-- `HashMap::insert` / `BTreeMap::insert`: replace the entry in place if the key is
already present, otherwise append it. -/
def mapInsert {K V : Type} [DecidableEq K] : Map K V → K → V → Map K V
  | [], k, v => [(k, v)]
  | kv :: rest, k, v => if kv.1 = k then (k, v) :: rest else kv :: mapInsert rest k v

/-- `HashMap::get` (first matching entry). -/
def mapGet {K V : Type} [DecidableEq K] : Map K V → K → Option V
  | [], _ => none
  | kv :: rest, k => if kv.1 = k then some kv.2 else mapGet rest k

/-- `HashMap::remove` (drops the first matching entry). -/
def mapEraseKey {K V : Type} [DecidableEq K] : Map K V → K → Map K V
  | [], _ => []
  | kv :: rest, k => if kv.1 = k then rest else kv :: mapEraseKey rest k

/-- `HashMap::contains_key`. -/
def mapContains {K V : Type} [DecidableEq K] (m : Map K V) (k : K) : Bool :=
  m.any (fun kv => decide (kv.1 = k))

/-- `HashMap::keys`. -/
def mapKeys {K V : Type} (m : Map K V) : List K :=
  m.map Prod.fst

/-- `HashMap::values`. -/
def mapValues {K V : Type} (m : Map K V) : List V :=
  m.map Prod.snd

/-- `HashMap::extend`: insert every entry of `m2` into `m1`, later entries winning. -/
def mapExtend {K V : Type} [DecidableEq K] (m1 m2 : Map K V) : Map K V :=
  m2.foldl (fun acc kv => mapInsert acc kv.1 kv.2) m1

/-! ## Oracle data model (`src/agent/solana/oracle.rs`) -/

/-- A 32-byte Solana account key, injected into `Nat`. -/
abbrev Pubkey := Nat

/-- `Pubkey::default()`: the all-zero sentinel key terminating on-chain linked chains. -/
def pubkeyDefault : Pubkey := 0

/-- `pyth_sdk_solana::state::MappingAccount`, restricted to the fields the agent
reads: the list of product account keys and the `next` sibling key. -/
structure MappingAccount where
  products : List Pubkey
  next : Pubkey
deriving DecidableEq

/-- `pyth_sdk_solana::state::PriceAccount`, restricted to the fields the agent
reads: the `next` sibling price key, plus the decoded payload (aggregate price)
standing in for the remaining decoded state. -/
structure PriceAccount where
  next : Pubkey
  agg : Int
deriving DecidableEq

/-- `pyth_sdk_solana::state::ProductAccount`, restricted to the fields the agent
reads: `px_acc`, the head of the product's price-account chain. -/
structure ProductAccountData where
  px_acc : Pubkey
deriving DecidableEq

/-- `oracle::ProductAccount`: the decoded product data plus the price-account keys
discovered by walking its price chain. -/
structure ProductAccount where
  account_data : ProductAccountData
  price_accounts : List Pubkey
deriving DecidableEq

/-- `oracle::Data`: the synchronizer's authoritative account graph. -/
structure Data where
  mapping_accounts : Map Pubkey MappingAccount
  product_accounts : Map Pubkey ProductAccount
  price_accounts : Map Pubkey PriceAccount
deriving DecidableEq

/-- `global::Update`: the tagged messages sent downstream to the global store. -/
inductive Update where
  | productAccountUpdate (account_key : Pubkey) (account : ProductAccount)
  | priceAccountUpdate (account_key : Pubkey) (account : PriceAccount)
deriving DecidableEq

/-- The remote ledger, seen through `rpc_client.get_account_data` composed with the
decoding library (`load_mapping_account` / `load_product_account` /
`load_price_account`): `none` collapses an RPC read failure and a decode failure,
both of which surface as `Err` via `?` in the Rust code. -/
structure RpcEnv where
  mapping : Pubkey → Option MappingAccount
  product : Pubkey → Option ProductAccountData
  price : Pubkey → Option PriceAccount

/-- Outcome of a fallible fetch loop: success, a surfaced error, or exhausted fuel
(modelling a non-terminating chain walk). -/
inductive FetchOut (α : Type) where
  | ok (a : α)
  | err
  | spin
deriving DecidableEq

/-- Whether a fetch loop returned `Ok`. -/
def fetchOk {α : Type} : FetchOut α → Bool
  | .ok _ => true
  | _ => false

/-- Whether a fetch loop ran out of fuel (did not finish). -/
def fetchSpin {α : Type} : FetchOut α → Bool
  | .spin => true
  | _ => false

/-- `Oracle::fetch_mapping_accounts`: walk the mapping chain from `account_key`
until the sentinel, fetching and inserting each node. -/
def fetch_mapping_accounts (env : RpcEnv) (account_key : Pubkey)
    (accounts : Map Pubkey MappingAccount) : Nat → FetchOut (Map Pubkey MappingAccount)
  | 0 => .spin
  | fuel + 1 =>
    if account_key = pubkeyDefault then .ok accounts
    else
      match env.mapping account_key with
      | none => .err
      | some a => fetch_mapping_accounts env a.next (mapInsert accounts account_key a) fuel

/-- `Oracle::fetch_price_account`. -/
def fetch_price_account (env : RpcEnv) (price_account_key : Pubkey) : FetchOut PriceAccount :=
  match env.price price_account_key with
  | none => .err
  | some a => .ok a

/-- The price-chain `while` loop inside `Oracle::fetch_product_account`: walk the
price chain from `price_account_key` until the sentinel, fetching and inserting
each node. -/
def walk_price_chain (env : RpcEnv) (price_account_key : Pubkey)
    (price_accounts : Map Pubkey PriceAccount) : Nat → FetchOut (Map Pubkey PriceAccount)
  | 0 => .spin
  | fuel + 1 =>
    if price_account_key = pubkeyDefault then .ok price_accounts
    else
      match fetch_price_account env price_account_key with
      | .err => .err
      | .spin => .spin
      | .ok pa => walk_price_chain env pa.next (mapInsert price_accounts price_account_key pa) fuel

/-- `Oracle::fetch_product_account`: fetch the product, walk its price chain, and
record the discovered price keys. -/
def fetch_product_account (env : RpcEnv) (product_account_key : Pubkey) (fuel : Nat) :
    FetchOut ProductAccount :=
  match env.product product_account_key with
  | none => .err
  | some pd =>
    match walk_price_chain env pd.px_acc [] fuel with
    | .spin => .spin
    | .err => .err
    | .ok m => .ok { account_data := pd, price_accounts := mapKeys m }

/-- The `for` loop of `Oracle::fetch_product_accounts_from_mapping_account`. -/
def fetch_products_into (env : RpcEnv) (fuel : Nat) :
    List Pubkey → Map Pubkey ProductAccount → FetchOut (Map Pubkey ProductAccount)
  | [], acc => .ok acc
  | k :: ks, acc =>
    match fetch_product_account env k fuel with
    | .spin => .spin
    | .err => .err
    | .ok pa => fetch_products_into env fuel ks (mapInsert acc k pa)

/-- `Oracle::fetch_product_accounts_from_mapping_account`. -/
def fetch_product_accounts_from_mapping_account (env : RpcEnv) (fuel : Nat)
    (mapping_account : MappingAccount) : FetchOut (Map Pubkey ProductAccount) :=
  fetch_products_into env fuel mapping_account.products []

/-- `Oracle::fetch_product_accounts`: fetch each mapping account's products and
`extend` them into one map. -/
def fetch_product_accounts (env : RpcEnv) (fuel : Nat) :
    List MappingAccount → Map Pubkey ProductAccount → FetchOut (Map Pubkey ProductAccount)
  | [], acc => .ok acc
  | ma :: mas, acc =>
    match fetch_product_accounts_from_mapping_account env fuel ma with
    | .spin => .spin
    | .err => .err
    | .ok sub => fetch_product_accounts env fuel mas (mapExtend acc sub)

/-- The inner `for` loop of `Oracle::fetch_price_accounts`. -/
def fetch_prices_into (env : RpcEnv) :
    List Pubkey → Map Pubkey PriceAccount → FetchOut (Map Pubkey PriceAccount)
  | [], acc => .ok acc
  | k :: ks, acc =>
    match fetch_price_account env k with
    | .spin => .spin
    | .err => .err
    | .ok pa => fetch_prices_into env ks (mapInsert acc k pa)

/-- `Oracle::fetch_price_accounts`. -/
def fetch_price_accounts (env : RpcEnv) :
    List ProductAccount → Map Pubkey PriceAccount → FetchOut (Map Pubkey PriceAccount)
  | [], acc => .ok acc
  | pa :: pas, acc =>
    match fetch_prices_into env pa.price_accounts acc with
    | .spin => .spin
    | .err => .err
    | .ok acc2 => fetch_price_accounts env pas acc2

/-- `Oracle::send_all_data_to_global_store`: one message per product entry, then one
per price entry. The channel send is modelled as infallible (send failure is an
environment condition of the channel, not of the graph). -/
def send_all_data_to_global_store (d : Data) : List Update :=
  d.product_accounts.map (fun kv => Update.productAccountUpdate kv.1 kv.2)
    ++ d.price_accounts.map (fun kv => Update.priceAccountUpdate kv.1 kv.2)

/-- Result of `Oracle::poll`: success with the new graph and the forwarded messages,
a surfaced error with the graph as left behind by the partially executed cycle, or
a non-terminating chain walk. -/
inductive PollOut where
  | ok (d : Data) (msgs : List Update)
  | err (d : Data)
  | spin
deriving DecidableEq

/-- `Oracle::poll`. Each `self.data.… = self.fetch_…(…).await?;` line assigns its map
as soon as its own fetch succeeds, so a later failure leaves the earlier assignments
in place — the embedding reproduces the assignment order faithfully. -/
def poll (env : RpcEnv) (mapping_account_key : Pubkey) (fuel : Nat) (s : Data) : PollOut :=
  match fetch_mapping_accounts env mapping_account_key [] fuel with
  | .spin => .spin
  | .err => .err s
  | .ok ms =>
    let s1 : Data := { s with mapping_accounts := ms }
    match fetch_product_accounts env fuel (mapValues ms) [] with
    | .spin => .spin
    | .err => .err s1
    | .ok ps =>
      let s2 : Data := { s1 with product_accounts := ps }
      match fetch_price_accounts env (mapValues ps) [] with
      | .spin => .spin
      | .err => .err s2
      | .ok prs =>
        let s3 : Data := { s2 with price_accounts := prs }
        .ok s3 (send_all_data_to_global_store s3)

/-! ## Push notifications (`handle_account_update`) -/

/-- Raw bytes of a pushed account, modelled at the decoding-library boundary: the
spec scopes out wire-level decoding ("assumed to be provided by a decoding
library"), so raw bytes are represented by their decoding outcome — either bytes
that `load_price_account` decodes to a given price account, or bytes it rejects. -/
inductive AccountData where
  | priceBytes (p : PriceAccount)
  | malformed
deriving DecidableEq

/-- `solana_sdk::account::Account`, restricted to the `data` field, the only one the
agent reads. -/
structure Account where
  data : AccountData
deriving DecidableEq

/-- `pyth_sdk_solana::state::load_price_account` at the modelled byte boundary. -/
def load_price_account : AccountData → Option PriceAccount
  | .priceBytes p => some p
  | .malformed => none

/-- Result of handling one push notification: the new graph, the forwarded
messages, and whether an error was surfaced (`Err` from `handle_account_update`). -/
structure HandleOut where
  data : Data
  msgs : List Update
  isErr : Bool
deriving DecidableEq

/-- `Oracle::handle_price_account_update`: decode, replace the map entry, forward
one `PriceAccountUpdate`. -/
def handle_price_account_update (s : Data) (account_key : Pubkey) (account : Account) :
    HandleOut :=
  match load_price_account account.data with
  | none => ⟨s, [], true⟩
  | some pa =>
    ⟨{ s with price_accounts := mapInsert s.price_accounts account_key pa },
      [Update.priceAccountUpdate account_key pa], false⟩

/-- `Oracle::handle_account_update`: ignore keys absent from the price-account map,
otherwise delegate to `handle_price_account_update`. -/
def handle_account_update (s : Data) (account_key : Pubkey) (account : Account) :
    HandleOut :=
  if mapContains s.price_accounts account_key then
    handle_price_account_update s account_key account
  else ⟨s, [], false⟩

/-! ## Chain-walk observables -/

/-- The key reached after `i` steps of the mapping chain from `root`: `some k` when
every fetch along the way succeeds and the sentinel was not reached strictly
earlier; `none` otherwise. -/
def mapping_chain_key (env : RpcEnv) (root : Pubkey) : Nat → Option Pubkey
  | 0 => some root
  | i + 1 =>
    if root = pubkeyDefault then none
    else
      match env.mapping root with
      | none => none
      | some a => mapping_chain_key env a.next i

/-- The key reached after `i` steps of a price chain from `start` (same conventions
as `mapping_chain_key`). -/
def price_chain_key (env : RpcEnv) (start : Pubkey) : Nat → Option Pubkey
  | 0 => some start
  | i + 1 =>
    if start = pubkeyDefault then none
    else
      match env.price start with
      | none => none
      | some pa => price_chain_key env pa.next i

/-- The sequence of keys on which `fetch_mapping_accounts` issues a fetch, within
the first `fuel` loop iterations (a key whose fetch fails is still fetched). -/
def mapping_fetch_trace (env : RpcEnv) (account_key : Pubkey) : Nat → List Pubkey
  | 0 => []
  | fuel + 1 =>
    if account_key = pubkeyDefault then []
    else
      match env.mapping account_key with
      | none => [account_key]
      | some a => account_key :: mapping_fetch_trace env a.next fuel

/-- The mapping-chain traversal completes successfully after exactly `n` fetches:
fuel `n + 1` suffices to return `Ok` while fuel `n` does not complete the loop. -/
def mapping_done (env : RpcEnv) (root : Pubkey) (n : Nat) : Bool :=
  fetchOk (fetch_mapping_accounts env root [] (n + 1))
    && fetchSpin (fetch_mapping_accounts env root [] n)

/-! ## Dashboard view builder (`src/agent/dashboard.rs`) -/

/-- `pyth_sdk::PriceIdentifier`: a 32-byte value in one-to-one byte correspondence
with a `Pubkey`; with both injected into `Nat` the byte reinterpretations
(`Identifier::new(key.to_bytes())` and `Pubkey::new_from_array(id.to_bytes())`)
are the identity. -/
abbrev PriceIdentifier := Nat

/-- `Pubkey::new_from_array(identifier.to_bytes())`. -/
def pubkey_new_from_array (identifier : PriceIdentifier) : Pubkey := identifier

/-- `Identifier::new(price_key.to_bytes())`. -/
def identifier_new (price_key : Pubkey) : PriceIdentifier := price_key

/-- Modelled from the spec: the local pending store's per-price record
(`store::local::PriceInfo`, not under `src/`); the view builder treats it opaquely,
so only a timestamp payload is kept. -/
structure PriceInfo where
  timestamp : Int
deriving DecidableEq

/-- `PriceEntry` (the global store's confirmed price state, re-exported from the
oracle module): identified with the oracle's decoded price account. -/
abbrev PriceEntry := PriceAccount

/-- Modelled from the spec: the global store's per-price metadata
(`store::global::PriceAccountMetadata`, not under `src/`); the view builder treats
it opaquely, so only the exponent payload is kept. -/
structure PriceAccountMetadata where
  expo : Int
deriving DecidableEq

/-- Modelled from the spec: the global store's per-product metadata
(`store::global::ProductAccountMetadata`, not under `src/`): the free-form
attribute dictionary and the list of associated price keys (§4.3 of the spec). -/
structure ProductAccountMetadata where
  attr_dict : Map String String
  price_accounts : List Pubkey
deriving DecidableEq

/-- `store::global::AllAccountsData` (not under `src/`): the confirmed-state
snapshot, product and price account maps. -/
structure AllAccountsData where
  product_accounts : Map Pubkey ProductAccount
  price_accounts : Map Pubkey PriceEntry
deriving DecidableEq

/-- `store::global::AllAccountsMetadata` (not under `src/`): the metadata
snapshot, product and price metadata maps. -/
structure AllAccountsMetadata where
  product_accounts_metadata : Map Pubkey ProductAccountMetadata
  price_accounts_metadata : Map Pubkey PriceAccountMetadata
deriving DecidableEq

/-- `dashboard::DashboardPriceView`. -/
structure DashboardPriceView where
  local_data : Option PriceInfo
  global_data : Option PriceEntry
  global_metadata : Option PriceAccountMetadata
deriving DecidableEq

/-- `dashboard::DashboardSymbolView`. -/
structure DashboardSymbolView where
  product : Pubkey
  prices : Map Pubkey DashboardPriceView
deriving DecidableEq

/-- Insert into a sorted list (ascending), used to model `BTreeSet` iteration
order. -/
def insertSorted (x : Pubkey) : List Pubkey → List Pubkey
  | [] => [x]
  | y :: ys => if x ≤ y then x :: y :: ys else y :: insertSorted x ys

/-- `product_metadata.price_accounts.drain(0..).collect::<BTreeSet<_>>()`: the
product's price keys, deduplicated and in sorted iteration order. -/
def sortedDedup (l : List Pubkey) : List Pubkey :=
  l.dedup.foldr insertSorted []

/-- The mutable state threaded through `build_dashboard_data`: the report being
built (`ret`), the three snapshots being consumed destructively, the deduplicated
not-yet-consumed price-key set, the not-yet-consumed product-key set, and the
product keys that hit the missing-metadata warning branch (exposing the `warn!`
logs as data). -/
structure BuildState where
  ret : Map String DashboardSymbolView
  local_data : Map PriceIdentifier PriceInfo
  global_data : AllAccountsData
  global_metadata : AllAccountsMetadata
  all_price_keys : List Pubkey
  remaining_product_keys : List Pubkey
  missing_products : List Pubkey
deriving DecidableEq

/-- The body of the inner `for price_key in this_product_price_keys_dedup` loop of
`build_dashboard_data`: look up (and remove, to mark as consumed) the confirmed,
metadata and local records for one price key, and insert its `DashboardPriceView`. -/
def process_price (stp : BuildState × Map Pubkey DashboardPriceView) (price_key : Pubkey) :
    BuildState × Map Pubkey DashboardPriceView :=
  let st := stp.1
  let prices := stp.2
  let price_global_data := mapGet st.global_data.price_accounts price_key
  let price_global_metadata := mapGet st.global_metadata.price_accounts_metadata price_key
  let price_local_data := mapGet st.local_data (identifier_new price_key)
  let st' : BuildState :=
    { st with
      global_data :=
        { st.global_data with
          price_accounts := mapEraseKey st.global_data.price_accounts price_key },
      global_metadata :=
        { st.global_metadata with
          price_accounts_metadata :=
            mapEraseKey st.global_metadata.price_accounts_metadata price_key },
      local_data := mapEraseKey st.local_data (identifier_new price_key),
      all_price_keys := st.all_price_keys.erase price_key }
  (st', mapInsert prices price_key
    ⟨price_local_data, price_global_data, price_global_metadata⟩)

/-- The body of the outer `for product_key in all_product_keys_dedup` loop of
`build_dashboard_data`: discard the product's confirmed entry, look up its
metadata (warning and skipping on a miss), derive the display name from the
`"symbol"` attribute, build the per-price views, mark the product consumed, and
insert the symbol view under the (possibly `" (duplicate)"`-suffixed) name. -/
def process_product (st0 : BuildState) (product_key : Pubkey) : BuildState :=
  let st : BuildState :=
    { st0 with
      global_data :=
        { st0.global_data with
          product_accounts := mapEraseKey st0.global_data.product_accounts product_key } }
  match mapGet st.global_metadata.product_accounts_metadata product_key with
  | none => { st with missing_products := st.missing_products ++ [product_key] }
  | some product_metadata =>
    let st : BuildState :=
      { st with
        global_metadata :=
          { st.global_metadata with
            product_accounts_metadata :=
              mapEraseKey st.global_metadata.product_accounts_metadata product_key } }
    let symbol_name :=
      (mapGet product_metadata.attr_dict "symbol").getD
        ("unnamed product " ++ toString product_key)
    let this_product_price_keys_dedup := sortedDedup product_metadata.price_accounts
    let stp := this_product_price_keys_dedup.foldl process_price (st, [])
    let st : BuildState := stp.1
    let prices := stp.2
    let st : BuildState :=
      { st with remaining_product_keys := st.remaining_product_keys.erase product_key }
    let symbol_view : DashboardSymbolView := ⟨product_key, prices⟩
    let final_name :=
      if mapContains st.ret symbol_name then symbol_name ++ " (duplicate)" else symbol_name
    { st with ret := mapInsert st.ret final_name symbol_view }

/-- `dashboard::build_dashboard_data`. `product_iter` is the iteration order of
`all_product_keys_dedup`, the `HashSet` of the metadata snapshot's product keys
(`HashSet` iteration order is unspecified, so it is passed explicitly; theorems
hypothesise that it is a duplicate-free enumeration of those keys). The returned
state carries the report (`ret`) together with the final orphan sets
(`all_price_keys`, `remaining_product_keys`) and missing-metadata warnings that
the Rust function emits as `warn!` logs. -/
def build_dashboard_data (local_data : Map PriceIdentifier PriceInfo)
    (global_data : AllAccountsData) (global_metadata : AllAccountsMetadata)
    (product_iter : List Pubkey) : BuildState :=
  let all_price_keys :=
    ((mapKeys global_data.price_accounts
        ++ mapKeys global_metadata.price_accounts_metadata)
      ++ (mapKeys local_data).map pubkey_new_from_array).dedup
  let st0 : BuildState :=
    ⟨[], local_data, global_data, global_metadata, all_price_keys, product_iter, []⟩
  product_iter.foldl process_product st0

/-- The display name derived for a product (`attr_dict.get("symbol")` with the
"unnamed product" fallback), as computed inside `process_product`. -/
def display_name (product_key : Pubkey) (product_metadata : ProductAccountMetadata) : String :=
  (mapGet product_metadata.attr_dict "symbol").getD
    ("unnamed product " ++ toString product_key)

/-! ## Concrete instances used in witnesses and counterexamples -/

/-- The initial, empty account graph (`Data::default()`). -/
def emptyData : Data := ⟨[], [], []⟩

/-- An environment whose mapping account `1` points to itself: a cyclic chain. -/
def cycleEnv : RpcEnv :=
  { mapping := fun _ => some ⟨[], 1⟩
    product := fun _ => none
    price := fun _ => none }

/-- An environment whose mapping chain is `1 → 2 → sentinel` with no products. -/
def chainEnv : RpcEnv :=
  { mapping := fun k => if k = 1 then some ⟨[], 2⟩ else if k = 2 then some ⟨[], 0⟩ else none
    product := fun _ => none
    price := fun _ => none }

/-- An environment where the mapping-chain walk succeeds (`1 → sentinel`, listing
product `2`) but every product fetch fails. -/
def partialEnv : RpcEnv :=
  { mapping := fun k => if k = 1 then some ⟨[2], 0⟩ else none
    product := fun _ => none
    price := fun _ => none }

/-- The graph left behind by the poll cycle aborted against `partialEnv`: the
mapping map is already replaced, the others are untouched. -/
def partialData : Data := ⟨[(1, ⟨[2], 0⟩)], [], []⟩

/-- A healthy environment: mapping `1` lists product `2`, whose price chain is the
single price account `3`. -/
def okEnv : RpcEnv :=
  { mapping := fun k => if k = 1 then some ⟨[2], 0⟩ else none
    product := fun k => if k = 2 then some ⟨3⟩ else none
    price := fun k => if k = 3 then some ⟨0, 9⟩ else none }

/-- The graph a successful poll against `okEnv` builds. -/
def okData : Data := ⟨[(1, ⟨[2], 0⟩)], [(2, ⟨⟨3⟩, [3]⟩)], [(3, ⟨0, 9⟩)]⟩

/-- The messages a successful poll against `okEnv` forwards. -/
def okMsgs : List Update :=
  [.productAccountUpdate 2 ⟨⟨3⟩, [3]⟩, .priceAccountUpdate 3 ⟨0, 9⟩]

/-- A graph whose price-account map knows exactly key `5`. -/
def knownPriceData : Data := ⟨[], [], [(5, ⟨0, 7⟩)]⟩

/-- Product metadata carrying `symbol = "ETH/USD"` and no price keys. -/
def ethMeta : ProductAccountMetadata := ⟨[("symbol", "ETH/USD")], []⟩

/-- A metadata snapshot with two distinct products both named `"ETH/USD"`. -/
def mdTwoEth : AllAccountsMetadata := ⟨[(1, ethMeta), (2, ethMeta)], []⟩

/-- A metadata snapshot with three distinct products all named `"ETH/USD"`. -/
def mdThreeEth : AllAccountsMetadata := ⟨[(1, ethMeta), (2, ethMeta), (3, ethMeta)], []⟩

/-- An empty confirmed-state snapshot. -/
def emptyAccountsData : AllAccountsData := ⟨[], []⟩

/-- A confirmed-state snapshot whose price map holds key `7` only. -/
def orphanAccountsData : AllAccountsData := ⟨[], [(7, ⟨0, 9⟩)]⟩

/-- A metadata snapshot with one product (key `1`) listing the single price key `4`. -/
def mdOneProduct : AllAccountsMetadata := ⟨[(1, ⟨[("symbol", "BTC/USD")], [4]⟩)], []⟩

/-! ## Shared lemmas about the map model -/

theorem mapKeys_nil {K V : Type} : mapKeys ([] : Map K V) = [] := rfl

theorem mapKeys_cons {K V : Type} (kv : K × V) (m : Map K V) :
    mapKeys (kv :: m) = kv.1 :: mapKeys m := rfl

section MapLemmas

variable {K V : Type} [DecidableEq K]

theorem mapGet_insert_self (m : Map K V) (k : K) (v : V) :
    mapGet (mapInsert m k v) k = some v := by
  induction m with
  | nil => simp [mapInsert, mapGet]
  | cons kv rest ih =>
    by_cases h : kv.1 = k
    · simp [mapInsert, h, mapGet]
    · simp [mapInsert, h, mapGet, ih]

theorem mapGet_insert_ne (m : Map K V) (k k' : K) (v : V) (h : k' ≠ k) :
    mapGet (mapInsert m k v) k' = mapGet m k' := by
  have hne : ¬ k = k' := fun hh => h hh.symm
  induction m with
  | nil => simp [mapInsert, mapGet, hne]
  | cons kv rest ih =>
    by_cases hk : kv.1 = k
    · subst hk
      simp [mapInsert, mapGet, hne]
    · simp only [mapInsert, if_neg hk, mapGet]
      by_cases hk2 : kv.1 = k'
      · simp [hk2]
      · simp [hk2, ih]

theorem mem_keys_insert (m : Map K V) (k a : K) (v : V) :
    a ∈ mapKeys (mapInsert m k v) ↔ a = k ∨ a ∈ mapKeys m := by
  induction m with
  | nil => simp [mapInsert, mapKeys]
  | cons kv rest ih =>
    by_cases h : kv.1 = k
    · subst h
      simp [mapInsert, mapKeys]
    · simp only [mapInsert, if_neg h, mapKeys_cons, List.mem_cons]
      constructor
      · rintro (ha | ha)
        · exact Or.inr (Or.inl ha)
        · rcases ih.mp ha with h2 | h2
          · exact Or.inl h2
          · exact Or.inr (Or.inr h2)
      · rintro (ha | ha | ha)
        · exact Or.inr (ih.mpr (Or.inl ha))
        · exact Or.inl ha
        · exact Or.inr (ih.mpr (Or.inr ha))

theorem mapContains_iff_mem_keys (m : Map K V) (k : K) :
    mapContains m k = true ↔ k ∈ mapKeys m := by
  simp only [mapContains, List.any_eq_true, decide_eq_true_eq, mapKeys, List.mem_map]

theorem mapKeys_insert_of_contains (m : Map K V) (k : K) (v : V)
    (h : mapContains m k = true) : mapKeys (mapInsert m k v) = mapKeys m := by
  induction m with
  | nil => simp [mapContains] at h
  | cons kv rest ih =>
    by_cases hk : kv.1 = k
    · simp [mapInsert, hk, mapKeys]
    · have h2 : mapContains rest k = true := by
        simp only [mapContains, List.any_cons, Bool.or_eq_true, decide_eq_true_eq] at h
        rcases h with h | h
        · exact absurd h hk
        · exact h
      simp only [mapInsert, if_neg hk, mapKeys_cons]
      rw [ih h2]

theorem mapKeys_insert_of_not_contains (m : Map K V) (k : K) (v : V)
    (h : mapContains m k = false) : mapKeys (mapInsert m k v) = mapKeys m ++ [k] := by
  induction m with
  | nil => simp [mapInsert, mapKeys]
  | cons kv rest ih =>
    simp only [mapContains, List.any_cons, Bool.or_eq_false_iff,
      decide_eq_false_iff_not] at h
    have h2 : mapContains rest k = false := by
      simp only [mapContains]
      exact h.2
    simp only [mapInsert, if_neg h.1, mapKeys_cons, List.cons_append]
    rw [ih h2]


theorem mapGet_isSome_iff_mem_keys (m : Map K V) (k : K) :
    (mapGet m k).isSome = true ↔ k ∈ mapKeys m := by
  induction m with
  | nil => simp [mapGet, mapKeys]
  | cons kv rest ih =>
    by_cases h : kv.1 = k
    · simp [mapGet, h, mapKeys]
    · simp only [mapGet, if_neg h, mapKeys, List.map_cons, List.mem_cons]
      rw [ih]
      constructor
      · exact Or.inr
      · rintro (he | he)
        · exact absurd he.symm h
        · exact he

theorem mapGet_mem (m : Map K V) (k : K) (v : V) (h : mapGet m k = some v) :
    (k, v) ∈ m := by
  induction m with
  | nil => simp [mapGet] at h
  | cons kv rest ih =>
    by_cases hk : kv.1 = k
    · simp only [mapGet, if_pos hk, Option.some.injEq] at h
      have he : (k, v) = kv := by
        rw [← h, ← hk]
      exact he ▸ List.mem_cons_self _ _
    · simp only [mapGet, if_neg hk] at h
      exact List.mem_cons_of_mem _ (ih h)

theorem mem_insert_elim (m : Map K V) (k : K) (v : V) (e : K × V)
    (h : e ∈ mapInsert m k v) : e = (k, v) ∨ e ∈ m := by
  induction m with
  | nil => simpa [mapInsert] using h
  | cons kv rest ih =>
    by_cases hk : kv.1 = k
    · simp only [mapInsert, if_pos hk, List.mem_cons] at h
      rcases h with h | h
      · exact Or.inl h
      · exact Or.inr (List.mem_cons_of_mem _ h)
    · simp only [mapInsert, if_neg hk, List.mem_cons] at h
      rcases h with h | h
      · exact Or.inr (h ▸ List.mem_cons_self _ _)
      · rcases ih h with h2 | h2
        · exact Or.inl h2
        · exact Or.inr (List.mem_cons_of_mem _ h2)

theorem mem_eraseKey_elim (m : Map K V) (k : K) (e : K × V)
    (h : e ∈ mapEraseKey m k) : e ∈ m := by
  induction m with
  | nil => simp [mapEraseKey] at h
  | cons kv rest ih =>
    by_cases hk : kv.1 = k
    · simp only [mapEraseKey, if_pos hk] at h
      exact List.mem_cons_of_mem _ h
    · simp only [mapEraseKey, if_neg hk, List.mem_cons] at h
      rcases h with h | h
      · exact h ▸ List.mem_cons_self _ _
      · exact List.mem_cons_of_mem _ (ih h)

theorem mapGet_eraseKey_ne (m : Map K V) (k k' : K) (h : k' ≠ k) :
    mapGet (mapEraseKey m k) k' = mapGet m k' := by
  have hne : ¬ k = k' := fun hh => h hh.symm
  induction m with
  | nil => simp [mapEraseKey]
  | cons kv rest ih =>
    by_cases hk : kv.1 = k
    · subst hk
      simp [mapEraseKey, mapGet, hne]
    · simp only [mapEraseKey, if_neg hk, mapGet]
      by_cases hk2 : kv.1 = k'
      · simp [hk2]
      · simp [hk2, ih]

theorem mapKeys_nodup_insert (m : Map K V) (k : K) (v : V)
    (h : (mapKeys m).Nodup) : (mapKeys (mapInsert m k v)).Nodup := by
  induction m with
  | nil => simp [mapInsert, mapKeys]
  | cons kv rest ih =>
    simp only [mapKeys, List.map_cons, List.nodup_cons] at h
    by_cases hk : kv.1 = k
    · subst hk
      simpa [mapInsert, mapKeys] using h
    · simp only [mapInsert, if_neg hk, mapKeys, List.map_cons, List.nodup_cons]
      refine ⟨fun hmem => ?_, ih h.2⟩
      rcases (mem_keys_insert rest k kv.1 v).mp hmem with he | he
      · exact hk he
      · exact h.1 he

theorem mapGet_eq_of_mem_nodup (m : Map K V) (k : K) (v : V)
    (hm : (mapKeys m).Nodup) (h : (k, v) ∈ m) : mapGet m k = some v := by
  induction m with
  | nil => simp at h
  | cons kv rest ih =>
    simp only [mapKeys, List.map_cons, List.nodup_cons] at hm
    rcases List.mem_cons.mp h with he | he
    · rw [← he]
      simp [mapGet]
    · have hk : ¬ kv.1 = k := by
        intro hk
        apply hm.1
        rw [hk]
        exact List.mem_map_of_mem Prod.fst he
      simp [mapGet, hk, ih hm.2 he]

theorem mem_extend_elim (m1 m2 : Map K V) (e : K × V)
    (h : e ∈ mapExtend m1 m2) : e ∈ m1 ∨ e ∈ m2 := by
  induction m2 generalizing m1 with
  | nil => exact Or.inl h
  | cons kv rest ih =>
    rcases ih (mapInsert m1 kv.1 kv.2) h with h2 | h2
    · rcases mem_insert_elim m1 kv.1 kv.2 e h2 with h3 | h3
      · exact Or.inr (h3 ▸ List.mem_cons_self _ _)
      · exact Or.inl h3
    · exact Or.inr (List.mem_cons_of_mem _ h2)

theorem mapKeys_nodup_extend (m1 m2 : Map K V)
    (h : (mapKeys m1).Nodup) : (mapKeys (mapExtend m1 m2)).Nodup := by
  induction m2 generalizing m1 with
  | nil => exact h
  | cons kv rest ih => exact ih _ (mapKeys_nodup_insert m1 kv.1 kv.2 h)

end MapLemmas

/-! ## List and string helpers -/

theorem mem_insertSorted (x a : Pubkey) (l : List Pubkey) :
    a ∈ insertSorted x l ↔ a = x ∨ a ∈ l := by
  induction l with
  | nil => simp [insertSorted]
  | cons y ys ih =>
    by_cases h : x ≤ y
    · simp [insertSorted, h]
    · simp only [insertSorted, if_neg h, List.mem_cons, ih]
      tauto

theorem nodup_insertSorted (x : Pubkey) (l : List Pubkey) (hx : x ∉ l) (h : l.Nodup) :
    (insertSorted x l).Nodup := by
  induction l with
  | nil => simp [insertSorted]
  | cons y ys ih =>
    simp only [List.mem_cons, not_or] at hx
    simp only [List.nodup_cons] at h
    by_cases hle : x ≤ y
    · simp only [insertSorted, if_pos hle]
      refine List.nodup_cons.mpr ⟨?_, List.nodup_cons.mpr ⟨h.1, h.2⟩⟩
      simp only [List.mem_cons, not_or]
      exact ⟨hx.1, hx.2⟩
    · simp only [insertSorted, if_neg hle]
      refine List.nodup_cons.mpr ⟨fun hy => ?_, ih hx.2 h.2⟩
      rcases (mem_insertSorted x y ys).mp hy with he | he
      · exact hx.1 he.symm
      · exact h.1 he

theorem mem_foldr_insertSorted (l : List Pubkey) (a : Pubkey) :
    a ∈ l.foldr insertSorted [] ↔ a ∈ l := by
  induction l with
  | nil => simp
  | cons x xs ih => simp [mem_insertSorted, ih]

theorem mem_sortedDedup (l : List Pubkey) (a : Pubkey) :
    a ∈ sortedDedup l ↔ a ∈ l := by
  simp [sortedDedup, mem_foldr_insertSorted, List.mem_dedup]

theorem nodup_sortedDedup (l : List Pubkey) : (sortedDedup l).Nodup := by
  have haux : ∀ l2 : List Pubkey, l2.Nodup → (l2.foldr insertSorted []).Nodup := by
    intro l2 h2
    induction l2 with
    | nil => simp
    | cons x xs ih =>
      simp only [List.nodup_cons] at h2
      simp only [List.foldr_cons]
      exact nodup_insertSorted x _
        (fun hm => h2.1 ((mem_foldr_insertSorted xs x).mp hm)) (ih h2.2)
  exact haux l.dedup l.nodup_dedup

theorem string_ne_append_duplicate (s : String) : s ≠ s ++ " (duplicate)" := by
  intro h
  have h2 : s.length = (s ++ " (duplicate)").length := congrArg String.length h
  rw [String.length_append] at h2
  have h3 : (" (duplicate)" : String).length = 12 := rfl
  omega

theorem foldl_erase_self (l : List Pubkey) (h : l.Nodup) :
    l.foldl List.erase l = [] := by
  induction l with
  | nil => rfl
  | cons k ks ih =>
    simp only [List.nodup_cons] at h
    simp only [List.foldl_cons, List.erase_cons_head]
    exact ih h.2

/-! ## Mapping-chain traversal lemmas -/

theorem fetch_mapping_succ (env : RpcEnv) (key : Pubkey) (acc : Map Pubkey MappingAccount)
    (fuel : Nat) :
    fetch_mapping_accounts env key acc (fuel + 1) =
      if key = pubkeyDefault then .ok acc
      else
        match env.mapping key with
        | none => .err
        | some a => fetch_mapping_accounts env a.next (mapInsert acc key a) fuel := rfl

theorem mapping_trace_succ (env : RpcEnv) (key : Pubkey) (fuel : Nat) :
    mapping_fetch_trace env key (fuel + 1) =
      if key = pubkeyDefault then []
      else
        match env.mapping key with
        | none => [key]
        | some a => key :: mapping_fetch_trace env a.next fuel := rfl

theorem mapping_chain_succ (env : RpcEnv) (root : Pubkey) (i : Nat) :
    mapping_chain_key env root (i + 1) =
      if root = pubkeyDefault then none
      else
        match env.mapping root with
        | none => none
        | some a => mapping_chain_key env a.next i := rfl

theorem mapping_chain_shift (env : RpcEnv) (key : Pubkey) (a : MappingAccount)
    (h : ¬ key = pubkeyDefault) (he : env.mapping key = some a) (i : Nat) :
    mapping_chain_key env key (i + 1) = mapping_chain_key env a.next i := by
  rw [mapping_chain_succ, if_neg h, he]

theorem mapping_done_iff_aux (env : RpcEnv) :
    ∀ (n : Nat) (key : Pubkey) (acc : Map Pubkey MappingAccount),
      (fetchOk (fetch_mapping_accounts env key acc (n + 1))
          && fetchSpin (fetch_mapping_accounts env key acc n)) = true
        ↔ mapping_chain_key env key n = some pubkeyDefault := by
  intro n
  induction n with
  | zero =>
    intro key acc
    by_cases h : key = pubkeyDefault
    · simp [fetch_mapping_accounts, h, mapping_chain_key, fetchOk, fetchSpin]
    · cases he : env.mapping key with
      | none =>
        rw [show fetch_mapping_accounts env key acc 1 = .err from by
          rw [fetch_mapping_succ, if_neg h, he]]
        simp [fetchOk, mapping_chain_key, h]
      | some a =>
        rw [show fetch_mapping_accounts env key acc 1 =
            fetch_mapping_accounts env a.next (mapInsert acc key a) 0 from by
          rw [fetch_mapping_succ, if_neg h, he]]
        simp [fetch_mapping_accounts, fetchOk, mapping_chain_key, h]
  | succ n ih =>
    intro key acc
    by_cases h : key = pubkeyDefault
    · rw [show fetch_mapping_accounts env key acc (n + 1) = .ok acc from by
        rw [fetch_mapping_succ, if_pos h]]
      simp [fetchSpin, mapping_chain_succ, h]
    · cases he : env.mapping key with
      | none =>
        rw [show fetch_mapping_accounts env key acc (n + 1 + 1) = .err from by
          rw [fetch_mapping_succ, if_neg h, he]]
        rw [show mapping_chain_key env key (n + 1) = none from by
          rw [mapping_chain_succ, if_neg h, he]]
        simp [fetchOk]
      | some a =>
        rw [show fetch_mapping_accounts env key acc (n + 1 + 1) =
            fetch_mapping_accounts env a.next (mapInsert acc key a) (n + 1) from by
          rw [fetch_mapping_succ, if_neg h, he]]
        rw [show fetch_mapping_accounts env key acc (n + 1) =
            fetch_mapping_accounts env a.next (mapInsert acc key a) n from by
          rw [fetch_mapping_succ, if_neg h, he]]
        rw [mapping_chain_shift env key a h he]
        exact ih a.next (mapInsert acc key a)

theorem mapping_trace_mem (env : RpcEnv) :
    ∀ (f : Nat) (key k : Pubkey), k ∈ mapping_fetch_trace env key f →
      k ≠ pubkeyDefault ∧ ∃ i, mapping_chain_key env key i = some k := by
  intro f
  induction f with
  | zero =>
    intro key k hk
    simp [mapping_fetch_trace] at hk
  | succ f ih =>
    intro key k hk
    by_cases h : key = pubkeyDefault
    · simp [mapping_fetch_trace, h] at hk
    · cases he : env.mapping key with
      | none =>
        rw [show mapping_fetch_trace env key (f + 1) = [key] from by
          rw [mapping_trace_succ, if_neg h, he]] at hk
        simp only [List.mem_singleton] at hk
        subst hk
        exact ⟨h, 0, rfl⟩
      | some a =>
        rw [show mapping_fetch_trace env key (f + 1) =
            key :: mapping_fetch_trace env a.next f from by
          rw [mapping_trace_succ, if_neg h, he]] at hk
        rcases List.mem_cons.mp hk with hk2 | hk2
        · subst hk2
          exact ⟨h, 0, rfl⟩
        · rcases ih a.next k hk2 with ⟨hne, i, hi⟩
          exact ⟨hne, i + 1, by rw [mapping_chain_shift env key a h he] ; exact hi⟩

theorem mapping_chain_none_after_sentinel (env : RpcEnv) :
    ∀ (m : Nat) (key : Pubkey), mapping_chain_key env key m = some pubkeyDefault →
      ∀ j, mapping_chain_key env key (m + j + 1) = none := by
  intro m
  induction m with
  | zero =>
    intro key hm j
    simp only [mapping_chain_key, Option.some.injEq] at hm
    subst hm
    rw [show 0 + j + 1 = j + 1 from by omega, mapping_chain_succ]
    simp
  | succ m ih =>
    intro key hm j
    by_cases h : key = pubkeyDefault
    · rw [mapping_chain_succ, if_pos h] at hm
      exact absurd hm (by simp)
    · cases he : env.mapping key with
      | none =>
        rw [mapping_chain_succ, if_neg h, he] at hm
        exact absurd hm (by simp)
      | some a =>
        rw [mapping_chain_shift env key a h he] at hm
        have h2 := ih a.next hm j
        rw [show m + 1 + j + 1 = (m + j + 1) + 1 from by omega,
          mapping_chain_shift env key a h he]
        exact h2

theorem mapping_trace_nodup_of_inj (env : RpcEnv) :
    ∀ (n : Nat) (key : Pubkey), mapping_chain_key env key n = some pubkeyDefault →
      (∀ i, i < n → ∀ j, j < n → i ≠ j →
        mapping_chain_key env key i ≠ mapping_chain_key env key j) →
      ∀ f, (mapping_fetch_trace env key f).Nodup := by
  intro n
  induction n with
  | zero =>
    intro key hn _ f
    simp only [mapping_chain_key, Option.some.injEq] at hn
    subst hn
    cases f with
    | zero => simp [mapping_fetch_trace]
    | succ f => simp [mapping_fetch_trace]
  | succ n ih =>
    intro key hn hinj f
    by_cases h : key = pubkeyDefault
    · rw [mapping_chain_succ, if_pos h] at hn
      exact absurd hn (by simp)
    · cases he : env.mapping key with
      | none =>
        rw [mapping_chain_succ, if_neg h, he] at hn
        exact absurd hn (by simp)
      | some a =>
        have hshift := mapping_chain_shift env key a h he
        rw [hshift n] at hn
        cases f with
        | zero => simp [mapping_fetch_trace]
        | succ f =>
          rw [show mapping_fetch_trace env key (f + 1) =
              key :: mapping_fetch_trace env a.next f from by
            rw [mapping_trace_succ, if_neg h, he]]
          refine List.nodup_cons.mpr ⟨fun hmem => ?_, ?_⟩
          · rcases mapping_trace_mem env f a.next key hmem with ⟨_, i, hi⟩
            have hki : mapping_chain_key env key (i + 1) = some key := by
              rw [hshift i]
              exact hi
            have hile : i + 1 < n + 1 := by
              by_contra hcon
              push_neg at hcon
              rcases Nat.lt_or_ge (n + 1) (i + 1) with hlt | hge
              · obtain ⟨j, hj⟩ : ∃ j, i + 1 = (n + 1) + j + 1 := by
                  refine ⟨i - n - 1, by omega⟩
                rw [hj, mapping_chain_none_after_sentinel env (n + 1) key
                  (by rw [hshift n] ; exact hn) j] at hki
                exact absurd hki (by simp)
              · have : i + 1 = n + 1 := by omega
                rw [this, hshift n, hn] at hki
                have : key = pubkeyDefault := by
                  simpa using hki.symm
                exact h this
            have h0 : mapping_chain_key env key 0 = some key := rfl
            exact hinj 0 (by omega) (i + 1) hile (by omega)
              (by rw [h0, hki])
          · refine ih a.next hn (fun i hi j hj hij => ?_) f
            have := hinj (i + 1) (by omega) (j + 1) (by omega) (by omega)
            rw [hshift i, hshift j] at this
            exact this

/-! ## Price-chain and fetch lemmas -/

theorem walk_price_succ (env : RpcEnv) (key : Pubkey) (acc : Map Pubkey PriceAccount)
    (fuel : Nat) :
    walk_price_chain env key acc (fuel + 1) =
      if key = pubkeyDefault then .ok acc
      else
        match fetch_price_account env key with
        | .err => .err
        | .spin => .spin
        | .ok pa => walk_price_chain env pa.next (mapInsert acc key pa) fuel := rfl

theorem price_chain_succ (env : RpcEnv) (start : Pubkey) (i : Nat) :
    price_chain_key env start (i + 1) =
      if start = pubkeyDefault then none
      else
        match env.price start with
        | none => none
        | some pa => price_chain_key env pa.next i := rfl

theorem price_chain_shift (env : RpcEnv) (key : Pubkey) (pa : PriceAccount)
    (h : ¬ key = pubkeyDefault) (he : env.price key = some pa) (i : Nat) :
    price_chain_key env key (i + 1) = price_chain_key env pa.next i := by
  rw [price_chain_succ, if_neg h, he]

theorem walk_price_chain_keys (env : RpcEnv) :
    ∀ (fuel : Nat) (key : Pubkey) (acc m : Map Pubkey PriceAccount),
      walk_price_chain env key acc fuel = .ok m →
      ∀ k, k ∈ mapKeys m ↔ k ∈ mapKeys acc ∨
        (k ≠ pubkeyDefault ∧ ∃ i, price_chain_key env key i = some k) := by
  intro fuel
  induction fuel with
  | zero =>
    intro key acc m hm
    exact absurd hm (by simp [walk_price_chain])
  | succ fuel ih =>
    intro key acc m hm k
    by_cases h : key = pubkeyDefault
    · rw [walk_price_succ, if_pos h] at hm
      injection hm with hm
      subst hm
      constructor
      · exact Or.inl
      · rintro (hacc | ⟨hne, i, hi⟩)
        · exact hacc
        · cases i with
          | zero =>
            simp only [price_chain_key, Option.some.injEq] at hi
            exact absurd (by rw [← hi] ; exact h) hne
          | succ i =>
            rw [price_chain_succ, if_pos h] at hi
            exact absurd hi (by simp)
    · cases hf : env.price key with
      | none =>
        rw [show walk_price_chain env key acc (fuel + 1) = .err from by
          rw [walk_price_succ, if_neg h]
          simp [fetch_price_account, hf]] at hm
        exact absurd hm (by simp)
      | some pa =>
        rw [show walk_price_chain env key acc (fuel + 1) =
            walk_price_chain env pa.next (mapInsert acc key pa) fuel from by
          rw [walk_price_succ, if_neg h]
          simp [fetch_price_account, hf]] at hm
        rw [ih pa.next (mapInsert acc key pa) m hm k, mem_keys_insert]
        have hiff : (∃ i, price_chain_key env key i = some k) ↔
            k = key ∨ ∃ i, price_chain_key env pa.next i = some k := by
          constructor
          · rintro ⟨i, hi⟩
            cases i with
            | zero =>
              simp only [price_chain_key, Option.some.injEq] at hi
              exact Or.inl hi.symm
            | succ i =>
              rw [price_chain_shift env key pa h hf] at hi
              exact Or.inr ⟨i, hi⟩
          · rintro (hk | ⟨i, hi⟩)
            · exact ⟨0, by rw [hk] ; rfl⟩
            · exact ⟨i + 1, by rw [price_chain_shift env key pa h hf] ; exact hi⟩
        constructor
        · rintro ((hk | hacc) | ⟨hne, i, hi⟩)
          · exact Or.inr ⟨by rw [hk] ; exact h, hiff.mpr (Or.inl hk)⟩
          · exact Or.inl hacc
          · exact Or.inr ⟨hne, hiff.mpr (Or.inr ⟨i, hi⟩)⟩
        · rintro (hacc | ⟨hne, hi⟩)
          · exact Or.inl (Or.inr hacc)
          · rcases hiff.mp hi with hk | ⟨i, hi2⟩
            · exact Or.inl (Or.inl hk)
            · exact Or.inr ⟨hne, i, hi2⟩

theorem fetch_product_account_keys (env : RpcEnv) (key : Pubkey) (fuel : Nat)
    (pa : ProductAccount) (h : fetch_product_account env key fuel = .ok pa) :
    ∀ k, k ∈ pa.price_accounts ↔
      k ≠ pubkeyDefault ∧ ∃ i, price_chain_key env pa.account_data.px_acc i = some k := by
  unfold fetch_product_account at h
  cases he : env.product key with
  | none =>
    rw [he] at h
    exact absurd h (by simp)
  | some pd =>
    simp only [he] at h
    cases hw : walk_price_chain env pd.px_acc [] fuel with
    | spin =>
      rw [hw] at h
      exact absurd h (by simp)
    | err =>
      rw [hw] at h
      exact absurd h (by simp)
    | ok m =>
      rw [hw] at h
      simp only [] at h
      injection h with h
      subst h
      intro k
      have hkeys := walk_price_chain_keys env fuel pd.px_acc [] m hw k
      simpa [mapKeys] using hkeys

theorem fetch_products_into_mem (env : RpcEnv) (fuel : Nat) :
    ∀ (ks : List Pubkey) (acc m : Map Pubkey ProductAccount),
      fetch_products_into env fuel ks acc = .ok m →
      ∀ e, e ∈ m → e ∈ acc ∨ fetch_product_account env e.1 fuel = .ok e.2 := by
  intro ks
  induction ks with
  | nil =>
    intro acc m hm e he
    injection hm with hm
    subst hm
    exact Or.inl he
  | cons k ks ih =>
    intro acc m hm e he
    unfold fetch_products_into at hm
    cases hf : fetch_product_account env k fuel with
    | spin =>
      rw [hf] at hm
      exact absurd hm (by simp)
    | err =>
      rw [hf] at hm
      exact absurd hm (by simp)
    | ok pa =>
      rw [hf] at hm
      rcases ih _ m hm e he with h2 | h2
      · rcases mem_insert_elim acc k pa e h2 with h3 | h3
        · refine Or.inr ?_
          rw [h3]
          exact hf
        · exact Or.inl h3
      · exact Or.inr h2

theorem fetch_products_into_nodup (env : RpcEnv) (fuel : Nat) :
    ∀ (ks : List Pubkey) (acc m : Map Pubkey ProductAccount),
      fetch_products_into env fuel ks acc = .ok m →
      (mapKeys acc).Nodup → (mapKeys m).Nodup := by
  intro ks
  induction ks with
  | nil =>
    intro acc m hm ha
    injection hm with hm
    subst hm
    exact ha
  | cons k ks ih =>
    intro acc m hm ha
    unfold fetch_products_into at hm
    cases hf : fetch_product_account env k fuel with
    | spin =>
      rw [hf] at hm
      exact absurd hm (by simp)
    | err =>
      rw [hf] at hm
      exact absurd hm (by simp)
    | ok pa =>
      rw [hf] at hm
      exact ih _ m hm (mapKeys_nodup_insert acc k pa ha)

theorem fetch_product_accounts_mem (env : RpcEnv) (fuel : Nat) :
    ∀ (mas : List MappingAccount) (acc m : Map Pubkey ProductAccount),
      fetch_product_accounts env fuel mas acc = .ok m →
      ∀ e, e ∈ m → e ∈ acc ∨ fetch_product_account env e.1 fuel = .ok e.2 := by
  intro mas
  induction mas with
  | nil =>
    intro acc m hm e he
    injection hm with hm
    subst hm
    exact Or.inl he
  | cons ma mas ih =>
    intro acc m hm e he
    unfold fetch_product_accounts at hm
    cases hf : fetch_product_accounts_from_mapping_account env fuel ma with
    | spin =>
      rw [hf] at hm
      exact absurd hm (by simp)
    | err =>
      rw [hf] at hm
      exact absurd hm (by simp)
    | ok sub =>
      rw [hf] at hm
      rcases ih _ m hm e he with h2 | h2
      · rcases mem_extend_elim acc sub e h2 with h3 | h3
        · exact Or.inl h3
        · rcases fetch_products_into_mem env fuel ma.products [] sub hf e h3 with h4 | h4
          · simp at h4
          · exact Or.inr h4
      · exact Or.inr h2

theorem fetch_product_accounts_nodup (env : RpcEnv) (fuel : Nat) :
    ∀ (mas : List MappingAccount) (acc m : Map Pubkey ProductAccount),
      fetch_product_accounts env fuel mas acc = .ok m →
      (mapKeys acc).Nodup → (mapKeys m).Nodup := by
  intro mas
  induction mas with
  | nil =>
    intro acc m hm ha
    injection hm with hm
    subst hm
    exact ha
  | cons ma mas ih =>
    intro acc m hm ha
    unfold fetch_product_accounts at hm
    cases hf : fetch_product_accounts_from_mapping_account env fuel ma with
    | spin =>
      rw [hf] at hm
      exact absurd hm (by simp)
    | err =>
      rw [hf] at hm
      exact absurd hm (by simp)
    | ok sub =>
      rw [hf] at hm
      exact ih _ m hm (mapKeys_nodup_extend acc sub ha)

theorem fetch_prices_into_keys (env : RpcEnv) :
    ∀ (ks : List Pubkey) (acc m : Map Pubkey PriceAccount),
      fetch_prices_into env ks acc = .ok m →
      ∀ k, k ∈ mapKeys m ↔ k ∈ mapKeys acc ∨ k ∈ ks := by
  intro ks
  induction ks with
  | nil =>
    intro acc m hm k
    injection hm with hm
    subst hm
    simp
  | cons k0 ks ih =>
    intro acc m hm k
    unfold fetch_prices_into at hm
    cases hf : fetch_price_account env k0 with
    | spin =>
      rw [hf] at hm
      exact absurd hm (by simp)
    | err =>
      rw [hf] at hm
      exact absurd hm (by simp)
    | ok pa =>
      rw [hf] at hm
      rw [ih _ m hm k, mem_keys_insert]
      simp only [List.mem_cons]
      tauto

theorem fetch_price_accounts_keys (env : RpcEnv) :
    ∀ (pas : List ProductAccount) (acc m : Map Pubkey PriceAccount),
      fetch_price_accounts env pas acc = .ok m →
      ∀ k, k ∈ mapKeys m ↔ k ∈ mapKeys acc ∨ ∃ pa ∈ pas, k ∈ pa.price_accounts := by
  intro pas
  induction pas with
  | nil =>
    intro acc m hm k
    injection hm with hm
    subst hm
    simp
  | cons pa pas ih =>
    intro acc m hm k
    unfold fetch_price_accounts at hm
    cases hf : fetch_prices_into env pa.price_accounts acc with
    | spin =>
      rw [hf] at hm
      exact absurd hm (by simp)
    | err =>
      rw [hf] at hm
      exact absurd hm (by simp)
    | ok acc2 =>
      rw [hf] at hm
      rw [ih _ m hm k, fetch_prices_into_keys env pa.price_accounts acc acc2 hf k]
      constructor
      · rintro ((hacc | hpa) | ⟨pa2, hpa2, hk⟩)
        · exact Or.inl hacc
        · exact Or.inr ⟨pa, List.mem_cons_self _ _, hpa⟩
        · exact Or.inr ⟨pa2, List.mem_cons_of_mem _ hpa2, hk⟩
      · rintro (hacc | ⟨pa2, hpa2, hk⟩)
        · exact Or.inl (Or.inl hacc)
        · rcases List.mem_cons.mp hpa2 with he | he
          · exact Or.inl (Or.inr (he ▸ hk))
          · exact Or.inr ⟨pa2, he, hk⟩

/-! ## Poll inversion lemmas -/

theorem poll_ok_elim (env : RpcEnv) (root : Pubkey) (fuel : Nat) (s d : Data)
    (msgs : List Update) (h : poll env root fuel s = .ok d msgs) :
    ∃ ms ps prs,
      fetch_mapping_accounts env root [] fuel = .ok ms ∧
      fetch_product_accounts env fuel (mapValues ms) [] = .ok ps ∧
      fetch_price_accounts env (mapValues ps) [] = .ok prs ∧
      d = ⟨ms, ps, prs⟩ ∧ msgs = send_all_data_to_global_store ⟨ms, ps, prs⟩ := by
  unfold poll at h
  cases h1 : fetch_mapping_accounts env root [] fuel with
  | spin => rw [h1] at h; exact absurd h (by simp)
  | err => rw [h1] at h; exact absurd h (by simp)
  | ok ms =>
    rw [h1] at h
    simp only at h
    cases h2 : fetch_product_accounts env fuel (mapValues ms) [] with
    | spin => rw [h2] at h; exact absurd h (by simp)
    | err => rw [h2] at h; exact absurd h (by simp)
    | ok ps =>
      rw [h2] at h
      simp only at h
      cases h3 : fetch_price_accounts env (mapValues ps) [] with
      | spin => rw [h3] at h; exact absurd h (by simp)
      | err => rw [h3] at h; exact absurd h (by simp)
      | ok prs =>
        rw [h3] at h
        simp only at h
        injection h with hd hm
        exact ⟨ms, ps, prs, by simp [h1], by simp [h2], by simp [h3], hd.symm, hm.symm⟩

theorem poll_err_elim (env : RpcEnv) (root : Pubkey) (fuel : Nat) (s d : Data)
    (h : poll env root fuel s = .err d) :
    (fetch_mapping_accounts env root [] fuel = .err ∧ d = s)
    ∨ (∃ ms, fetch_mapping_accounts env root [] fuel = .ok ms
        ∧ fetch_product_accounts env fuel (mapValues ms) [] = .err
        ∧ d = { s with mapping_accounts := ms })
    ∨ (∃ ms ps, fetch_mapping_accounts env root [] fuel = .ok ms
        ∧ fetch_product_accounts env fuel (mapValues ms) [] = .ok ps
        ∧ fetch_price_accounts env (mapValues ps) [] = .err
        ∧ d = { s with mapping_accounts := ms, product_accounts := ps }) := by
  unfold poll at h
  cases h1 : fetch_mapping_accounts env root [] fuel with
  | spin => rw [h1] at h; exact absurd h (by simp)
  | err =>
    rw [h1] at h
    simp only at h
    injection h with hd
    exact Or.inl ⟨by simp [h1], hd.symm⟩
  | ok ms =>
    rw [h1] at h
    simp only at h
    cases h2 : fetch_product_accounts env fuel (mapValues ms) [] with
    | spin => rw [h2] at h; exact absurd h (by simp)
    | err =>
      rw [h2] at h
      simp only at h
      injection h with hd
      exact Or.inr (Or.inl ⟨ms, by simp [h1], by simp [h2], hd.symm⟩)
    | ok ps =>
      rw [h2] at h
      simp only at h
      cases h3 : fetch_price_accounts env (mapValues ps) [] with
      | spin => rw [h3] at h; exact absurd h (by simp)
      | err =>
        rw [h3] at h
        simp only at h
        injection h with hd
        exact Or.inr (Or.inr ⟨ms, ps, by simp [h1], by simp [h2], by simp [h3], hd.symm⟩)
      | ok prs =>
        rw [h3] at h
        exact absurd h (by simp)

/-! ## Dashboard builder lemmas -/

theorem price_fold_frame (pks : List Pubkey) :
    ∀ stp : BuildState × Map Pubkey DashboardPriceView,
      (pks.foldl process_price stp).1.ret = stp.1.ret
      ∧ (pks.foldl process_price stp).1.global_metadata.product_accounts_metadata
          = stp.1.global_metadata.product_accounts_metadata
      ∧ (pks.foldl process_price stp).1.remaining_product_keys
          = stp.1.remaining_product_keys
      ∧ (pks.foldl process_price stp).1.missing_products = stp.1.missing_products := by
  induction pks with
  | nil =>
    intro stp
    exact ⟨rfl, rfl, rfl, rfl⟩
  | cons k pks ih =>
    intro stp
    rw [List.foldl_cons]
    rcases ih (process_price stp k) with ⟨h1, h2, h3, h4⟩
    rw [h1, h2, h3, h4]
    refine ⟨?_, ?_, ?_, ?_⟩ <;> simp [process_price]

theorem price_fold_all_price (pks : List Pubkey) :
    ∀ (stp : BuildState × Map Pubkey DashboardPriceView) (pk : Pubkey), pk ∉ pks →
      pk ∈ stp.1.all_price_keys → pk ∈ (pks.foldl process_price stp).1.all_price_keys := by
  induction pks with
  | nil =>
    intro stp pk _ hin
    exact hin
  | cons k pks ih =>
    intro stp pk hout hin
    simp only [List.mem_cons, not_or] at hout
    rw [List.foldl_cons]
    refine ih (process_price stp k) pk hout.2 ?_
    have : (process_price stp k).1.all_price_keys = stp.1.all_price_keys.erase k := by
      simp [process_price]
    rw [this]
    exact (List.mem_erase_of_ne hout.1).mpr hin

theorem price_fold_prices_keys (pks : List Pubkey) :
    ∀ (stp : BuildState × Map Pubkey DashboardPriceView) (k2 : Pubkey),
      k2 ∈ mapKeys (pks.foldl process_price stp).2 → k2 ∈ mapKeys stp.2 ∨ k2 ∈ pks := by
  induction pks with
  | nil =>
    intro stp k2 h
    exact Or.inl h
  | cons k pks ih =>
    intro stp k2 h
    rw [List.foldl_cons] at h
    rcases ih (process_price stp k) k2 h with h2 | h2
    · have : (process_price stp k).2 =
          mapInsert stp.2 k
            ⟨mapGet stp.1.local_data (identifier_new k),
              mapGet stp.1.global_data.price_accounts k,
              mapGet stp.1.global_metadata.price_accounts_metadata k⟩ := by
        simp [process_price]
      rw [this] at h2
      rcases (mem_keys_insert stp.2 k k2 _).mp h2 with h3 | h3
      · exact Or.inr (h3 ▸ List.mem_cons_self _ _)
      · exact Or.inl h3
    · exact Or.inr (List.mem_cons_of_mem _ h2)

theorem process_product_missing_proj (st : BuildState) (k : Pubkey)
    (h : mapGet st.global_metadata.product_accounts_metadata k = none) :
    (process_product st k).ret = st.ret
    ∧ (process_product st k).global_metadata = st.global_metadata
    ∧ (process_product st k).remaining_product_keys = st.remaining_product_keys
    ∧ (process_product st k).missing_products = st.missing_products ++ [k]
    ∧ (process_product st k).all_price_keys = st.all_price_keys := by
  simp [process_product, h]

theorem process_product_found_proj (st : BuildState) (k : Pubkey)
    (m : ProductAccountMetadata)
    (h : mapGet st.global_metadata.product_accounts_metadata k = some m) :
    ∃ prices : Map Pubkey DashboardPriceView,
      (process_product st k).ret =
        mapInsert st.ret
          (if mapContains st.ret (display_name k m) = true
            then display_name k m ++ " (duplicate)"
            else display_name k m)
          ⟨k, prices⟩
      ∧ (∀ k2, k2 ∈ mapKeys prices → k2 ∈ sortedDedup m.price_accounts)
      ∧ (process_product st k).global_metadata.product_accounts_metadata
          = mapEraseKey st.global_metadata.product_accounts_metadata k
      ∧ (process_product st k).remaining_product_keys = st.remaining_product_keys.erase k
      ∧ (process_product st k).missing_products = st.missing_products
      ∧ (∀ pk, pk ∉ sortedDedup m.price_accounts →
          pk ∈ st.all_price_keys → pk ∈ (process_product st k).all_price_keys) := by
  refine ⟨((sortedDedup m.price_accounts).foldl process_price
      ({ st with
          global_data :=
            { st.global_data with
              product_accounts := mapEraseKey st.global_data.product_accounts k },
          global_metadata :=
            { st.global_metadata with
              product_accounts_metadata :=
                mapEraseKey st.global_metadata.product_accounts_metadata k } }, [])).2,
    ?_, ?_, ?_, ?_, ?_, ?_⟩
  · simp only [process_product, h]
    rcases price_fold_frame (sortedDedup m.price_accounts)
      ({ st with
          global_data :=
            { st.global_data with
              product_accounts := mapEraseKey st.global_data.product_accounts k },
          global_metadata :=
            { st.global_metadata with
              product_accounts_metadata :=
                mapEraseKey st.global_metadata.product_accounts_metadata k } }, [])
      with ⟨f1, _, _, _⟩
    simp [f1, display_name]
  · intro k2 hk2
    rcases price_fold_prices_keys (sortedDedup m.price_accounts) _ k2 hk2 with h2 | h2
    · simp [mapKeys] at h2
    · exact h2
  · simp only [process_product, h]
    rcases price_fold_frame (sortedDedup m.price_accounts)
      ({ st with
          global_data :=
            { st.global_data with
              product_accounts := mapEraseKey st.global_data.product_accounts k },
          global_metadata :=
            { st.global_metadata with
              product_accounts_metadata :=
                mapEraseKey st.global_metadata.product_accounts_metadata k } }, [])
      with ⟨_, f2, _, _⟩
    simp [f2]
  · simp only [process_product, h]
    rcases price_fold_frame (sortedDedup m.price_accounts)
      ({ st with
          global_data :=
            { st.global_data with
              product_accounts := mapEraseKey st.global_data.product_accounts k },
          global_metadata :=
            { st.global_metadata with
              product_accounts_metadata :=
                mapEraseKey st.global_metadata.product_accounts_metadata k } }, [])
      with ⟨_, _, f3, _⟩
    simp [f3]
  · simp only [process_product, h]
    rcases price_fold_frame (sortedDedup m.price_accounts)
      ({ st with
          global_data :=
            { st.global_data with
              product_accounts := mapEraseKey st.global_data.product_accounts k },
          global_metadata :=
            { st.global_metadata with
              product_accounts_metadata :=
                mapEraseKey st.global_metadata.product_accounts_metadata k } }, [])
      with ⟨_, _, _, f4⟩
    simp [f4]
  · intro pk hout hin
    simp only [process_product, h]
    exact price_fold_all_price (sortedDedup m.price_accounts) _ pk hout (by simpa using hin)

theorem fold_products_all_found (ks : List Pubkey) :
    ∀ st : BuildState, ks.Nodup →
      (∀ k, k ∈ ks → (mapGet st.global_metadata.product_accounts_metadata k).isSome = true) →
      (ks.foldl process_product st).missing_products = st.missing_products
      ∧ (ks.foldl process_product st).remaining_product_keys
          = ks.foldl List.erase st.remaining_product_keys := by
  induction ks with
  | nil =>
    intro st _ _
    exact ⟨rfl, rfl⟩
  | cons k ks ih =>
    intro st hn hp
    simp only [List.nodup_cons] at hn
    have hk := hp k (List.mem_cons_self _ _)
    rw [Option.isSome_iff_exists] at hk
    rcases hk with ⟨m, hm⟩
    rcases process_product_found_proj st k m hm with ⟨prices, _, _, hmd, hrem, hmiss, _⟩
    rw [List.foldl_cons, List.foldl_cons]
    have hp2 : ∀ k2, k2 ∈ ks →
        (mapGet (process_product st k).global_metadata.product_accounts_metadata k2).isSome
          = true := by
      intro k2 hk2
      rw [hmd, mapGet_eraseKey_ne _ _ _ (fun he => hn.1 (by rw [← he] ; exact hk2))]
      exact hp k2 (List.mem_cons_of_mem _ hk2)
    rcases ih (process_product st k) hn.2 hp2 with ⟨i1, i2⟩
    exact ⟨by rw [i1, hmiss], by rw [i2, hrem]⟩

theorem fold_products_orphan (ks : List Pubkey) :
    ∀ (st : BuildState) (pk : Pubkey),
      pk ∈ st.all_price_keys →
      (∀ e, e ∈ st.global_metadata.product_accounts_metadata → pk ∉ e.2.price_accounts) →
      (∀ e, e ∈ st.ret → pk ∉ mapKeys e.2.prices) →
      pk ∈ (ks.foldl process_product st).all_price_keys
      ∧ (∀ e, e ∈ (ks.foldl process_product st).ret → pk ∉ mapKeys e.2.prices) := by
  induction ks with
  | nil =>
    intro st pk h1 _ h3
    exact ⟨h1, h3⟩
  | cons k ks ih =>
    intro st pk h1 h2 h3
    rw [List.foldl_cons]
    cases hg : mapGet st.global_metadata.product_accounts_metadata k with
    | none =>
      rcases process_product_missing_proj st k hg with ⟨p1, p2, _, _, p5⟩
      refine ih (process_product st k) pk (by rw [p5] ; exact h1) ?_ ?_
      · intro e he
        rw [p2] at he
        exact h2 e he
      · intro e he
        rw [p1] at he
        exact h3 e he
    | some m =>
      have hnot : pk ∉ sortedDedup m.price_accounts := by
        intro hmem
        exact h2 (k, m) (mapGet_mem _ _ _ hg) ((mem_sortedDedup _ _).mp hmem)
      rcases process_product_found_proj st k m hg with ⟨prices, hret, hpr, hmd, _, _, hapk⟩
      refine ih (process_product st k) pk (hapk pk hnot h1) ?_ ?_
      · intro e he
        rw [hmd] at he
        exact h2 e (mem_eraseKey_elim _ _ _ he)
      · intro e he
        rw [hret] at he
        rcases mem_insert_elim _ _ _ e he with hee | hee
        · rw [hee]
          intro hc
          exact hnot (hpr pk hc)
        · exact h3 e hee

theorem fold_collision (ks : List Pubkey) :
    ∀ (st : BuildState) (S : String), ks.Nodup →
      (∀ k, k ∈ ks → ∃ m, mapGet st.global_metadata.product_accounts_metadata k = some m
        ∧ mapGet m.attr_dict "symbol" = some S) →
      mapContains st.ret S = true →
      mapGet (ks.foldl process_product st).ret S = mapGet st.ret S
      ∧ (ks ≠ [] → ∃ w : DashboardSymbolView,
          mapGet (ks.foldl process_product st).ret (S ++ " (duplicate)") = some w
          ∧ ks.getLast? = some w.product
          ∧ mapKeys (ks.foldl process_product st).ret =
              (if mapContains st.ret (S ++ " (duplicate)") = true then mapKeys st.ret
                else mapKeys st.ret ++ [S ++ " (duplicate)"])) := by
  induction ks with
  | nil =>
    intro st S _ _ _
    exact ⟨rfl, fun h => absurd rfl h⟩
  | cons k ks ih =>
    intro st S hn hp hS
    simp only [List.nodup_cons] at hn
    rcases hp k (List.mem_cons_self _ _) with ⟨m, hm, hsym⟩
    rcases process_product_found_proj st k m hm with ⟨prices, hret, _, hmd, _, _, _⟩
    have hname : display_name k m = S := by
      simp [display_name, hsym]
    rw [hname, if_pos hS] at hret
    have hSd : S ≠ S ++ " (duplicate)" := string_ne_append_duplicate S
    have hgetS : mapGet (process_product st k).ret S = mapGet st.ret S := by
      rw [hret, mapGet_insert_ne _ _ _ _ hSd]
    have hgetSd : mapGet (process_product st k).ret (S ++ " (duplicate)")
        = some ⟨k, prices⟩ := by
      rw [hret]
      exact mapGet_insert_self _ _ _
    have hS1 : mapContains (process_product st k).ret S = true := by
      rw [mapContains_iff_mem_keys, hret]
      exact (mem_keys_insert _ _ _ _).mpr
        (Or.inr ((mapContains_iff_mem_keys _ _).mp hS))
    have hkeys1 : mapKeys (process_product st k).ret =
        (if mapContains st.ret (S ++ " (duplicate)") = true then mapKeys st.ret
          else mapKeys st.ret ++ [S ++ " (duplicate)"]) := by
      rw [hret]
      by_cases hc : mapContains st.ret (S ++ " (duplicate)") = true
      · rw [if_pos hc]
        exact mapKeys_insert_of_contains _ _ _ hc
      · rw [if_neg hc]
        exact mapKeys_insert_of_not_contains _ _ _ (by
          cases hcc : mapContains st.ret (S ++ " (duplicate)") with
          | false => rfl
          | true => exact absurd hcc hc)
    rw [List.foldl_cons]
    cases ks with
    | nil =>
      refine ⟨hgetS, fun _ => ⟨⟨k, prices⟩, hgetSd, rfl, hkeys1⟩⟩
    | cons k2 ks2 =>
      have hp2 : ∀ k3, k3 ∈ k2 :: ks2 →
          ∃ m2, mapGet (process_product st k).global_metadata.product_accounts_metadata k3
              = some m2
            ∧ mapGet m2.attr_dict "symbol" = some S := by
        intro k3 hk3
        rcases hp k3 (List.mem_cons_of_mem _ hk3) with ⟨m2, hm2, hsym2⟩
        exact ⟨m2, by
          rw [hmd, mapGet_eraseKey_ne _ _ _ (fun he => hn.1 (by rw [← he] ; exact hk3))]
          exact hm2, hsym2⟩
      rcases ih (process_product st k) S hn.2 hp2 hS1 with ⟨g1, g3⟩
      rcases g3 (by simp) with ⟨w, gw, glast, gkeys⟩
      refine ⟨by rw [g1, hgetS], fun _ => ⟨w, gw, ?_, ?_⟩⟩
      · rw [List.getLast?_cons_cons]
        exact glast
      · rw [gkeys]
        have hcd : mapContains (process_product st k).ret (S ++ " (duplicate)") = true := by
          rw [mapContains_iff_mem_keys, hret]
          exact (mem_keys_insert _ _ _ _).mpr (Or.inl rfl)
        rw [if_pos hcd, hkeys1]

theorem nodup_all_eq_singleton (l : List Pubkey) (c : Pubkey) (hn : l.Nodup) (hc : c ∈ l)
    (hall : ∀ x, x ∈ l → x = c) : l = [c] := by
  cases l with
  | nil => simp at hc
  | cons a t =>
    have ha := hall a (List.mem_cons_self _ _)
    subst ha
    cases t with
    | nil => rfl
    | cons b t2 =>
      rcases List.nodup_cons.mp hn with ⟨hna, _⟩
      have hb := hall b (List.mem_cons_of_mem _ (List.mem_cons_self _ _))
      have : a ∈ b :: t2 := by
        rw [hb]
        exact List.mem_cons_self _ _
      exact absurd this hna

theorem nodup_pair_enum (iter : List Pubkey) (k1 k2 : Pubkey) (hne : k1 ≠ k2)
    (hn : iter.Nodup) (he : ∀ k, k ∈ iter ↔ (k = k1 ∨ k = k2)) :
    iter = [k1, k2] ∨ iter = [k2, k1] := by
  have h1 : k1 ∈ iter := (he k1).mpr (Or.inl rfl)
  have h2 : k2 ∈ iter := (he k2).mpr (Or.inr rfl)
  cases iter with
  | nil => simp at h1
  | cons a t =>
    rcases List.nodup_cons.mp hn with ⟨hna, hnt⟩
    rcases (he a).mp (List.mem_cons_self _ _) with ha | ha
    · subst ha
      left
      have h2t : k2 ∈ t := by
        rcases List.mem_cons.mp h2 with hh | hh
        · exact absurd hh.symm hne
        · exact hh
      have ht : t = [k2] := by
        refine nodup_all_eq_singleton t k2 hnt h2t (fun x hx => ?_)
        rcases (he x).mp (List.mem_cons_of_mem _ hx) with hxx | hxx
        · exact absurd (hxx ▸ hx) hna
        · exact hxx
      rw [ht]
    · subst ha
      right
      have h1t : k1 ∈ t := by
        rcases List.mem_cons.mp h1 with hh | hh
        · exact absurd hh hne
        · exact hh
      have ht : t = [k1] := by
        refine nodup_all_eq_singleton t k1 hnt h1t (fun x hx => ?_)
        rcases (he x).mp (List.mem_cons_of_mem _ hx) with hxx | hxx
        · exact hxx
        · exact absurd (hxx ▸ hx) hna
      rw [ht]

/-! ## Claim theorems: synchronizer -/

/-- Claim C1 as stated is false at this input: key `5` is present in the
price-account map, yet a push carrying undecodable bytes applies no update (the
graph is unchanged) and forwards nothing. -/
theorem push_known_key_undecodable_bytes_not_applied :
    mapContains knownPriceData.price_accounts 5 = true
    ∧ (handle_account_update knownPriceData 5 ⟨.malformed⟩).data = knownPriceData
    ∧ (handle_account_update knownPriceData 5 ⟨.malformed⟩).msgs = [] := by
  decide

/-- C1 (amended): a push notification (key `K`, raw bytes) is applied — the
price-account map entry for `K` replaced with the decoded account and exactly one
`PriceAccountUpdate` forwarded — if and only if `K` was already present in the
price-account map and the bytes decode as a price account. If `K` is absent the
graph is unchanged and nothing is forwarded (no error); if `K` is present but the
bytes do not decode, the graph is unchanged, nothing is forwarded, and the error
is surfaced. -/
theorem push_update_applied_iff_key_known_and_decodes
    (s : Data) (key : Pubkey) (account : Account) :
    ((∃ pa, load_price_account account.data = some pa
        ∧ (handle_account_update s key account).data
            = { s with price_accounts := mapInsert s.price_accounts key pa }
        ∧ (handle_account_update s key account).msgs = [.priceAccountUpdate key pa])
      ↔ (mapContains s.price_accounts key = true
          ∧ (load_price_account account.data).isSome = true))
    ∧ (mapContains s.price_accounts key = false →
        (handle_account_update s key account).data = s
        ∧ (handle_account_update s key account).msgs = []
        ∧ (handle_account_update s key account).isErr = false)
    ∧ (mapContains s.price_accounts key = true → load_price_account account.data = none →
        (handle_account_update s key account).data = s
        ∧ (handle_account_update s key account).msgs = []
        ∧ (handle_account_update s key account).isErr = true) := by
  by_cases hc : mapContains s.price_accounts key = true
  · cases hd : load_price_account account.data with
    | none =>
      have hh : handle_account_update s key account = ⟨s, [], true⟩ := by
        simp [handle_account_update, handle_price_account_update, hc, hd]
      refine ⟨⟨?_, ?_⟩, ?_, ?_⟩
      · rintro ⟨pa, hpa, _, _⟩
        exact absurd hpa (by simp)
      · rintro ⟨_, hsome⟩
        simp at hsome
      · intro hcf
        rw [hc] at hcf
        simp at hcf
      · intro _ _
        rw [hh]
        exact ⟨rfl, rfl, rfl⟩
    | some pa =>
      have hh : handle_account_update s key account =
          ⟨{ s with price_accounts := mapInsert s.price_accounts key pa },
            [.priceAccountUpdate key pa], false⟩ := by
        simp [handle_account_update, handle_price_account_update, hc, hd]
      refine ⟨⟨?_, ?_⟩, ?_, ?_⟩
      · intro _
        exact ⟨hc, rfl⟩
      · intro _
        exact ⟨pa, rfl, by rw [hh], by rw [hh]⟩
      · intro hcf
        rw [hc] at hcf
        simp at hcf
      · intro _ hdn
        simp at hdn
  · have hcf : mapContains s.price_accounts key = false := by
      cases h2 : mapContains s.price_accounts key with
      | false => rfl
      | true => exact absurd h2 hc
    have hh : handle_account_update s key account = ⟨s, [], false⟩ := by
      simp [handle_account_update, hcf]
    refine ⟨⟨?_, ?_⟩, ?_, ?_⟩
    · rintro ⟨pa, _, _, hmsgs⟩
      rw [hh] at hmsgs
      simp at hmsgs
    · rintro ⟨hct, _⟩
      exact absurd hct hc
    · intro _
      rw [hh]
      exact ⟨rfl, rfl, rfl⟩
    · intro hct
      exact absurd hct hc

/-- Witness for the amended C1: a push for a key unknown to the graph is silently
ignored. -/
theorem push_unknown_key_ignored_instance :
    (handle_account_update emptyData 5 ⟨.malformed⟩).data = emptyData
    ∧ (handle_account_update emptyData 5 ⟨.malformed⟩).msgs = []
    ∧ (handle_account_update emptyData 5 ⟨.malformed⟩).isErr = false :=
  (push_update_applied_iff_key_known_and_decodes emptyData 5 ⟨.malformed⟩).2.1 (by decide)

/-- Claim C2 as stated is false at this input: against `partialEnv` the
mapping-chain walk succeeds and its result is assigned to the graph before the
product fetch fails, so the aborted poll leaves the mapping-account map changed
from its pre-poll value. -/
theorem poll_partial_commit_on_product_fetch_failure :
    poll partialEnv 1 3 emptyData = .err partialData
    ∧ partialData.mapping_accounts ≠ emptyData.mapping_accounts := by
  decide

/-- C2 (amended): when any fetch of a poll cycle fails, the cycle aborts with the
error surfaced and no messages forwarded, and the price-account map is unchanged;
but maps whose stage completed before the failing fetch are already replaced: a
mapping-stage failure leaves all three maps unchanged, a product-stage failure
leaves the mapping map replaced and the other two unchanged, and a price-stage
failure leaves the mapping and product maps replaced and the price map
unchanged. -/
theorem poll_fetch_failure_surfaced_and_stagewise_state
    (env : RpcEnv) (root : Pubkey) (fuel : Nat) (s d : Data)
    (h : poll env root fuel s = .err d) :
    d.price_accounts = s.price_accounts
    ∧ ((fetch_mapping_accounts env root [] fuel = .err ∧ d = s)
      ∨ (∃ ms, fetch_mapping_accounts env root [] fuel = .ok ms
          ∧ fetch_product_accounts env fuel (mapValues ms) [] = .err
          ∧ d = { s with mapping_accounts := ms })
      ∨ (∃ ms ps, fetch_mapping_accounts env root [] fuel = .ok ms
          ∧ fetch_product_accounts env fuel (mapValues ms) [] = .ok ps
          ∧ fetch_price_accounts env (mapValues ps) [] = .err
          ∧ d = { s with mapping_accounts := ms, product_accounts := ps })) := by
  have he := poll_err_elim env root fuel s d h
  refine ⟨?_, he⟩
  rcases he with ⟨_, hd⟩ | ⟨ms, _, _, hd⟩ | ⟨ms, ps, _, _, _, hd⟩ <;> rw [hd]

/-- Witness for the amended C2 at a concrete aborted poll. -/
theorem poll_fetch_failure_instance :
    partialData.price_accounts = emptyData.price_accounts :=
  (poll_fetch_failure_surfaced_and_stagewise_state partialEnv 1 3 emptyData partialData
    (by decide)).1

/-- C3: a successful poll forwards exactly one `ProductAccountUpdate` per rebuilt
product-map entry followed by one `PriceAccountUpdate` per rebuilt price-map entry
(no deduplication or diffing against the previous graph), so the message count is
the sum of the two rebuilt map sizes. -/
theorem poll_success_message_count_matches_rebuilt_maps
    (env : RpcEnv) (root : Pubkey) (fuel : Nat) (s d : Data) (msgs : List Update)
    (h : poll env root fuel s = .ok d msgs) :
    msgs = d.product_accounts.map (fun kv => Update.productAccountUpdate kv.1 kv.2)
        ++ d.price_accounts.map (fun kv => Update.priceAccountUpdate kv.1 kv.2)
    ∧ msgs.length = d.product_accounts.length + d.price_accounts.length := by
  rcases poll_ok_elim env root fuel s d msgs h with ⟨ms, ps, prs, _, _, _, hd, hm⟩
  subst hd
  subst hm
  exact ⟨rfl, by simp [send_all_data_to_global_store]⟩

/-- Witness for C3 at a concrete successful poll. -/
theorem poll_success_message_count_instance :
    okMsgs = okData.product_accounts.map (fun kv => Update.productAccountUpdate kv.1 kv.2)
        ++ okData.price_accounts.map (fun kv => Update.priceAccountUpdate kv.1 kv.2)
    ∧ okMsgs.length = okData.product_accounts.length + okData.price_accounts.length :=
  poll_success_message_count_matches_rebuilt_maps okEnv 1 5 emptyData okData okMsgs
    (by decide)

/-- Claim C4's "no key is ever fetched twice" is false on a cyclic chain: with
mapping account `1` pointing to itself, the traversal fetches key `1` twice within
its first two iterations (and never terminates). -/
theorem mapping_chain_cycle_refetches_key :
    mapping_fetch_trace cycleEnv 1 2 = [1, 1]
    ∧ ¬ (mapping_fetch_trace cycleEnv 1 2).Nodup := by
  decide

/-- C4 (amended): the mapping-chain traversal terminates successfully after exactly
`N` fetches iff the `N`-th chain key is the all-zero sentinel (the root itself for
`N = 0`); and, provided the chain is acyclic up to the sentinel (no two of the
first `N` chain keys coincide — an assumption the code makes but does not check),
no account key is fetched twice within one traversal. -/
theorem mapping_chain_termination_iff_sentinel_and_acyclic_no_refetch
    (env : RpcEnv) (root : Pubkey) (n : Nat) :
    (mapping_done env root n = true ↔ mapping_chain_key env root n = some pubkeyDefault)
    ∧ (mapping_chain_key env root n = some pubkeyDefault →
        (∀ i, i < n → ∀ j, j < n → i ≠ j →
          mapping_chain_key env root i ≠ mapping_chain_key env root j) →
        ∀ f, (mapping_fetch_trace env root f).Nodup) :=
  ⟨mapping_done_iff_aux env n root [], mapping_trace_nodup_of_inj env n root⟩

/-- Witness for the amended C4: the chain `1 → 2 → sentinel` terminates after
exactly two fetches and never fetches a key twice. -/
theorem mapping_chain_termination_instance :
    mapping_done chainEnv 1 2 = true ∧ (mapping_fetch_trace chainEnv 1 5).Nodup :=
  ⟨(mapping_chain_termination_iff_sentinel_and_acyclic_no_refetch chainEnv 1 2).1.mpr
      (by decide),
    (mapping_chain_termination_iff_sentinel_and_acyclic_no_refetch chainEnv 1 2).2
      (by decide) (by decide) 5⟩

/-- C5: after a successful poll, the price-account map's key set is exactly the set
of price keys reachable by walking each fetched product account's price chain,
starting at its `px_acc` field and following `next` until the sentinel. -/
theorem poll_success_price_keys_iff_reachable
    (env : RpcEnv) (root : Pubkey) (fuel : Nat) (s d : Data) (msgs : List Update)
    (h : poll env root fuel s = .ok d msgs) (k : Pubkey) :
    k ∈ mapKeys d.price_accounts ↔
      ∃ pk pa, mapGet d.product_accounts pk = some pa
        ∧ k ≠ pubkeyDefault
        ∧ ∃ i, price_chain_key env pa.account_data.px_acc i = some k := by
  rcases poll_ok_elim env root fuel s d msgs h with ⟨ms, ps, prs, h1, h2, h3, hd, hm⟩
  subst hd
  have hnodup : (mapKeys ps).Nodup :=
    fetch_product_accounts_nodup env fuel (mapValues ms) [] ps h2 (by simp [mapKeys])
  show k ∈ mapKeys prs ↔ _
  rw [fetch_price_accounts_keys env (mapValues ps) [] prs h3 k]
  constructor
  · rintro (hacc | ⟨pa, hpa, hkpa⟩)
    · simp [mapKeys] at hacc
    · rcases List.mem_map.mp hpa with ⟨e, he, hee⟩
      have hmem : (e.1, pa) ∈ ps := by
        rw [← hee]
        exact he
      have hget : mapGet ps e.1 = some pa := mapGet_eq_of_mem_nodup ps e.1 pa hnodup hmem
      have hfetch : fetch_product_account env e.1 fuel = .ok pa := by
        rcases fetch_product_accounts_mem env fuel (mapValues ms) [] ps h2 (e.1, pa) hmem
          with hx | hx
        · simp at hx
        · exact hx
      rcases (fetch_product_account_keys env e.1 fuel pa hfetch k).mp hkpa with ⟨hne, i, hi⟩
      exact ⟨e.1, pa, hget, hne, i, hi⟩
  · rintro ⟨pk, pa, hget, hne, i, hi⟩
    right
    have hmem : (pk, pa) ∈ ps := mapGet_mem ps pk pa hget
    have hfetch : fetch_product_account env pk fuel = .ok pa := by
      rcases fetch_product_accounts_mem env fuel (mapValues ms) [] ps h2 (pk, pa) hmem
        with hx | hx
      · simp at hx
      · exact hx
    refine ⟨pa, ?_, (fetch_product_account_keys env pk fuel pa hfetch k).mpr ⟨hne, i, hi⟩⟩
    exact List.mem_map.mpr ⟨(pk, pa), hmem, rfl⟩

/-- Witness for C5 at a concrete successful poll: price key `3` is reachable from
product `2`. -/
theorem poll_success_price_keys_reachable_instance :
    3 ∈ mapKeys okData.price_accounts ↔
      ∃ pk pa, mapGet okData.product_accounts pk = some pa
        ∧ (3 : Pubkey) ≠ pubkeyDefault
        ∧ ∃ i, price_chain_key okEnv pa.account_data.px_acc i = some 3 :=
  poll_success_price_keys_iff_reachable okEnv 1 5 emptyData okData okMsgs (by decide) 3

/-- C6: the price-account key set is an invariant of push handling — for every
input key and bytes, `handle_account_update` leaves the key set exactly unchanged
(incremental updates never add nor remove keys) — and after a successful poll,
every key of the price-account map was reached by walking from some product
account of the freshly rebuilt graph. -/
theorem price_key_set_invariant_under_push_and_poll :
    (∀ (s : Data) (key : Pubkey) (account : Account),
      mapKeys (handle_account_update s key account).data.price_accounts
        = mapKeys s.price_accounts)
    ∧ (∀ (env : RpcEnv) (root : Pubkey) (fuel : Nat) (s d : Data) (msgs : List Update),
        poll env root fuel s = .ok d msgs →
        ∀ k, k ∈ mapKeys d.price_accounts →
          ∃ pk pa, mapGet d.product_accounts pk = some pa ∧ k ∈ pa.price_accounts) := by
  constructor
  · intro s key account
    by_cases hc : mapContains s.price_accounts key = true
    · cases hd : load_price_account account.data with
      | none => simp [handle_account_update, handle_price_account_update, hc, hd]
      | some pa =>
        simp only [handle_account_update, handle_price_account_update, hc, hd, if_true]
        exact mapKeys_insert_of_contains _ _ _ hc
    · have hcf : mapContains s.price_accounts key = false := by
        cases h2 : mapContains s.price_accounts key with
        | false => rfl
        | true => exact absurd h2 hc
      simp [handle_account_update, hcf]
  · intro env root fuel s d msgs h k hk
    rcases poll_ok_elim env root fuel s d msgs h with ⟨ms, ps, prs, h1, h2, h3, hd, _⟩
    subst hd
    have hnodup : (mapKeys ps).Nodup :=
      fetch_product_accounts_nodup env fuel (mapValues ms) [] ps h2 (by simp [mapKeys])
    have hk2 : k ∈ mapKeys prs := hk
    rw [fetch_price_accounts_keys env (mapValues ps) [] prs h3 k] at hk2
    rcases hk2 with hacc | ⟨pa, hpa, hkpa⟩
    · simp [mapKeys] at hacc
    · rcases List.mem_map.mp hpa with ⟨e, he, hee⟩
      have hmem : (e.1, pa) ∈ ps := by
        rw [← hee]
        exact he
      exact ⟨e.1, pa, mapGet_eq_of_mem_nodup ps e.1 pa hnodup hmem, hkpa⟩

/-- Witness for C6's poll clause at a concrete successful poll. -/
theorem price_key_invariant_instance :
    ∃ pk pa, mapGet okData.product_accounts pk = some pa ∧ 3 ∈ pa.price_accounts :=
  price_key_set_invariant_under_push_and_poll.2 okEnv 1 5 emptyData okData okMsgs
    (by decide) 3 (by decide)

/-! ## Claim theorems: dashboard -/

theorem build_dashboard_data_eq (local_data : Map PriceIdentifier PriceInfo)
    (global_data : AllAccountsData) (global_metadata : AllAccountsMetadata)
    (product_iter : List Pubkey) :
    build_dashboard_data local_data global_data global_metadata product_iter =
      product_iter.foldl process_product
        ⟨[], local_data, global_data, global_metadata,
          ((mapKeys global_data.price_accounts
              ++ mapKeys global_metadata.price_accounts_metadata)
            ++ (mapKeys local_data).map pubkey_new_from_array).dedup,
          product_iter, []⟩ := rfl

theorem fold_two_same_symbol (st : BuildState) (ka kb : Pubkey)
    (ma mb : ProductAccountMetadata) (S : String)
    (hret : st.ret = [])
    (hma : mapGet st.global_metadata.product_accounts_metadata ka = some ma)
    (hsa : mapGet ma.attr_dict "symbol" = some S)
    (hmb2 : mapGet (mapEraseKey st.global_metadata.product_accounts_metadata ka) kb
      = some mb)
    (hsb : mapGet mb.attr_dict "symbol" = some S) :
    (mapGet ([ka, kb].foldl process_product st).ret S).isSome = true
    ∧ (mapGet ([ka, kb].foldl process_product st).ret (S ++ " (duplicate)")).isSome = true
    ∧ (mapKeys ([ka, kb].foldl process_product st).ret).length = 2 := by
  have hSd : ¬ (S = S ++ " (duplicate)") := string_ne_append_duplicate S
  rcases process_product_found_proj st ka ma hma with ⟨pa, ra, _, mda, _, _, _⟩
  have hnamea : display_name ka ma = S := by
    simp [display_name, hsa]
  rw [hnamea] at ra
  have hca : mapContains st.ret S = false := by
    rw [hret]
    rfl
  have hconda : ¬ (mapContains st.ret S = true) := by
    rw [hca]
    simp
  rw [if_neg hconda] at ra
  have ra2 : (process_product st ka).ret = [(S, ⟨ka, pa⟩)] := by
    rw [ra, hret]
    rfl
  have hmb3 : mapGet (process_product st ka).global_metadata.product_accounts_metadata kb
      = some mb := by
    rw [mda]
    exact hmb2
  rcases process_product_found_proj (process_product st ka) kb mb hmb3
    with ⟨pb, rb, _, _, _, _, _⟩
  have hnameb : display_name kb mb = S := by
    simp [display_name, hsb]
  rw [hnameb] at rb
  have hcb : mapContains (process_product st ka).ret S = true := by
    rw [ra2]
    simp [mapContains]
  rw [if_pos hcb, ra2] at rb
  have rb2 : (process_product (process_product st ka) kb).ret
      = [(S, ⟨ka, pa⟩), (S ++ " (duplicate)", ⟨kb, pb⟩)] := by
    rw [rb]
    simp [mapInsert, hSd]
  rw [show [ka, kb].foldl process_product st
      = process_product (process_product st ka) kb from rfl, rb2]
  refine ⟨by simp [mapGet], by simp [mapGet, hSd], rfl⟩

/-- C7: if the metadata snapshot holds exactly two distinct products whose
attribute dictionaries both carry `symbol = "ETH/USD"`, the report holds exactly
two entries, keyed `"ETH/USD"` and `"ETH/USD (duplicate)"`; and for a single
product the report key is the product's `"symbol"` attribute when present and
otherwise the fallback string embedding the product key. -/
theorem duplicate_symbol_report_and_display_name :
    (∀ (ld : Map PriceIdentifier PriceInfo) (gd : AllAccountsData)
        (pmd : Map Pubkey PriceAccountMetadata) (k1 k2 : Pubkey)
        (m1 m2 : ProductAccountMetadata) (iter : List Pubkey),
      k1 ≠ k2 →
      mapGet m1.attr_dict "symbol" = some "ETH/USD" →
      mapGet m2.attr_dict "symbol" = some "ETH/USD" →
      iter.Nodup → (∀ k, k ∈ iter ↔ (k = k1 ∨ k = k2)) →
      (mapGet (build_dashboard_data ld gd ⟨[(k1, m1), (k2, m2)], pmd⟩ iter).ret
          "ETH/USD").isSome = true
      ∧ (mapGet (build_dashboard_data ld gd ⟨[(k1, m1), (k2, m2)], pmd⟩ iter).ret
          "ETH/USD (duplicate)").isSome = true
      ∧ (mapKeys (build_dashboard_data ld gd ⟨[(k1, m1), (k2, m2)], pmd⟩ iter).ret).length
          = 2)
    ∧ (∀ (ld : Map PriceIdentifier PriceInfo) (gd : AllAccountsData)
        (pmd : Map Pubkey PriceAccountMetadata) (k : Pubkey)
        (m : ProductAccountMetadata) (iter : List Pubkey),
      iter.Nodup → (∀ k2, k2 ∈ iter ↔ k2 = k) →
      mapKeys (build_dashboard_data ld gd ⟨[(k, m)], pmd⟩ iter).ret
        = [(mapGet m.attr_dict "symbol").getD ("unnamed product " ++ toString k)]) := by
  constructor
  · intro ld gd pmd k1 k2 m1 m2 iter hne hm1 hm2 hn he
    rcases nodup_pair_enum iter k1 k2 hne hn he with hi | hi
    · subst hi
      rw [build_dashboard_data_eq]
      exact fold_two_same_symbol _ k1 k2 m1 m2 "ETH/USD" rfl
        (by simp [mapGet]) hm1
        (by simp [mapEraseKey, mapGet]) hm2
    · subst hi
      rw [build_dashboard_data_eq]
      exact fold_two_same_symbol _ k2 k1 m2 m1 "ETH/USD" rfl
        (by simp [mapGet, hne]) hm2
        (by simp [mapEraseKey, mapGet, hne]) hm1
  · intro ld gd pmd k m iter hn he
    have hi : iter = [k] :=
      nodup_all_eq_singleton iter k hn ((he k).mpr rfl) (fun x hx => (he x).mp hx)
    subst hi
    rw [build_dashboard_data_eq]
    have hg : mapGet
        (⟨[], ld, gd, ⟨[(k, m)], pmd⟩,
          ((mapKeys gd.price_accounts ++ mapKeys pmd)
            ++ (mapKeys ld).map pubkey_new_from_array).dedup,
          [k], []⟩ : BuildState).global_metadata.product_accounts_metadata k
        = some m := by
      simp [mapGet]
    rcases process_product_found_proj _ k m hg with ⟨p, r, _, _, _, _, _⟩
    have hc : ¬ (mapContains
        (⟨[], ld, gd, ⟨[(k, m)], pmd⟩,
          ((mapKeys gd.price_accounts ++ mapKeys pmd)
            ++ (mapKeys ld).map pubkey_new_from_array).dedup,
          [k], []⟩ : BuildState).ret (display_name k m) = true) := by
      simp [mapContains]
    rw [if_neg hc] at r
    rw [show ([k] : List Pubkey).foldl process_product
        (⟨[], ld, gd, ⟨[(k, m)], pmd⟩,
          ((mapKeys gd.price_accounts ++ mapKeys pmd)
            ++ (mapKeys ld).map pubkey_new_from_array).dedup,
          [k], []⟩ : BuildState)
        = process_product
          (⟨[], ld, gd, ⟨[(k, m)], pmd⟩,
            ((mapKeys gd.price_accounts ++ mapKeys pmd)
              ++ (mapKeys ld).map pubkey_new_from_array).dedup,
            [k], []⟩ : BuildState) k from rfl, r]
    simp [mapInsert, mapKeys, display_name]

/-- Witness for C7: two distinct products named `"ETH/USD"` produce exactly the
two report entries, and the fallback naming holds for a symbol-less product. -/
theorem duplicate_symbol_report_instance :
    (mapGet (build_dashboard_data [] emptyAccountsData ⟨[(1, ethMeta), (2, ethMeta)], []⟩
        [1, 2]).ret "ETH/USD").isSome = true
    ∧ (mapGet (build_dashboard_data [] emptyAccountsData ⟨[(1, ethMeta), (2, ethMeta)], []⟩
        [1, 2]).ret "ETH/USD (duplicate)").isSome = true
    ∧ (mapKeys (build_dashboard_data [] emptyAccountsData
        ⟨[(1, ethMeta), (2, ethMeta)], []⟩ [1, 2]).ret).length = 2 :=
  duplicate_symbol_report_and_display_name.1 [] emptyAccountsData [] 1 2 ethMeta ethMeta
    [1, 2] (by decide) (by decide) (by decide) (by decide) (fun k => by simp)

/-- C8: a confirmed-state price key that no product of the metadata snapshot lists
gets no row in any symbol view of the report, and it remains in the
orphaned-price-key set computed after all products are processed (the set the
final orphan warning logs) — it is not silently dropped without trace. -/
theorem orphan_price_key_excluded_and_warned
    (local_data : Map PriceIdentifier PriceInfo) (global_data : AllAccountsData)
    (global_metadata : AllAccountsMetadata) (product_iter : List Pubkey) (pk : Pubkey)
    (hmem : pk ∈ mapKeys global_data.price_accounts)
    (hnol : ∀ e, e ∈ global_metadata.product_accounts_metadata →
      pk ∉ e.2.price_accounts) :
    (∀ e, e ∈ (build_dashboard_data local_data global_data global_metadata
        product_iter).ret → pk ∉ mapKeys e.2.prices)
    ∧ pk ∈ (build_dashboard_data local_data global_data global_metadata
        product_iter).all_price_keys := by
  rw [build_dashboard_data_eq]
  rcases fold_products_orphan product_iter
      ⟨[], local_data, global_data, global_metadata,
        ((mapKeys global_data.price_accounts
            ++ mapKeys global_metadata.price_accounts_metadata)
          ++ (mapKeys local_data).map pubkey_new_from_array).dedup,
        product_iter, []⟩ pk
      (by
        simp only [List.mem_dedup]
        exact List.mem_append_left _ (List.mem_append_left _ hmem))
      hnol
      (fun e he => absurd he (List.not_mem_nil e))
    with ⟨o1, o2⟩
  exact ⟨o2, o1⟩

/-- Witness for C8: confirmed price key `7` is unknown to the only product's
metadata, appears in no view, and survives in the orphan set. -/
theorem orphan_price_key_instance :
    (∀ e, e ∈ (build_dashboard_data [] orphanAccountsData mdOneProduct [1]).ret →
      (7 : Pubkey) ∉ mapKeys e.2.prices)
    ∧ (7 : Pubkey) ∈ (build_dashboard_data [] orphanAccountsData mdOneProduct
        [1]).all_price_keys :=
  orphan_price_key_excluded_and_warned [] orphanAccountsData mdOneProduct [1] 7
    (by decide)
    (fun e he => by
      simp only [mdOneProduct, List.mem_singleton] at he
      subst he
      decide)

/-- C9 (implicit): when three or more distinct products all carry the same symbol
`S`, the report still holds exactly two entries — `S` (the first processed
product) and `S ++ " (duplicate)"` — and the suffixed entry holds the view of the
last processed colliding product, each later collision having overwritten the
suffixed entry; the intermediate products' views are lost from the report. -/
theorem triple_collision_keeps_two_entries_last_wins
    (ld : Map PriceIdentifier PriceInfo) (gd : AllAccountsData)
    (md : AllAccountsMetadata) (iter : List Pubkey) (S : String)
    (hn : iter.Nodup) (hlen : 3 ≤ iter.length)
    (he : ∀ k, k ∈ iter ↔ k ∈ mapKeys md.product_accounts_metadata)
    (hsym : ∀ k, k ∈ iter → ∃ m, mapGet md.product_accounts_metadata k = some m
      ∧ mapGet m.attr_dict "symbol" = some S) :
    ∃ v w : DashboardSymbolView,
      mapGet (build_dashboard_data ld gd md iter).ret S = some v
      ∧ mapGet (build_dashboard_data ld gd md iter).ret (S ++ " (duplicate)") = some w
      ∧ (mapKeys (build_dashboard_data ld gd md iter).ret).length = 2
      ∧ iter.head? = some v.product
      ∧ iter.getLast? = some w.product := by
  have hSd : ¬ (S = S ++ " (duplicate)") := string_ne_append_duplicate S
  cases iter with
  | nil => simp at hlen
  | cons k0 rest =>
    rcases List.nodup_cons.mp hn with ⟨hn0, hnr⟩
    rcases hsym k0 (List.mem_cons_self _ _) with ⟨m0, hm0, hs0⟩
    rw [build_dashboard_data_eq]
    rcases process_product_found_proj
        (⟨[], ld, gd, md,
          ((mapKeys gd.price_accounts ++ mapKeys md.price_accounts_metadata)
            ++ (mapKeys ld).map pubkey_new_from_array).dedup,
          k0 :: rest, []⟩ : BuildState) k0 m0 hm0
      with ⟨p0, r0, _, mda, _, _, _⟩
    have hname0 : display_name k0 m0 = S := by
      simp [display_name, hs0]
    rw [hname0] at r0
    rw [if_neg (by simp [mapContains] : ¬ (mapContains
        (⟨[], ld, gd, md,
          ((mapKeys gd.price_accounts ++ mapKeys md.price_accounts_metadata)
            ++ (mapKeys ld).map pubkey_new_from_array).dedup,
          k0 :: rest, []⟩ : BuildState).ret S = true))] at r0
    have r02 : (process_product
        (⟨[], ld, gd, md,
          ((mapKeys gd.price_accounts ++ mapKeys md.price_accounts_metadata)
            ++ (mapKeys ld).map pubkey_new_from_array).dedup,
          k0 :: rest, []⟩ : BuildState) k0).ret = [(S, ⟨k0, p0⟩)] := by
      rw [r0]
      rfl
    have hrestne : rest ≠ [] := by
      intro hc
      rw [hc] at hlen
      simp at hlen
    have hp2 : ∀ k, k ∈ rest → ∃ m, mapGet (process_product
        (⟨[], ld, gd, md,
          ((mapKeys gd.price_accounts ++ mapKeys md.price_accounts_metadata)
            ++ (mapKeys ld).map pubkey_new_from_array).dedup,
          k0 :: rest, []⟩ : BuildState) k0).global_metadata.product_accounts_metadata k
        = some m ∧ mapGet m.attr_dict "symbol" = some S := by
      intro k hk
      rcases hsym k (List.mem_cons_of_mem _ hk) with ⟨m, hm, hs⟩
      refine ⟨m, ?_, hs⟩
      rw [mda, mapGet_eraseKey_ne _ _ _ (fun hkk => hn0 (by rw [← hkk] ; exact hk))]
      exact hm
    have hS1 : mapContains (process_product
        (⟨[], ld, gd, md,
          ((mapKeys gd.price_accounts ++ mapKeys md.price_accounts_metadata)
            ++ (mapKeys ld).map pubkey_new_from_array).dedup,
          k0 :: rest, []⟩ : BuildState) k0).ret S = true := by
      rw [r02]
      simp [mapContains]
    rcases fold_collision rest _ S hnr hp2 hS1 with ⟨g1, g3⟩
    rcases g3 hrestne with ⟨w, gw, glast, gkeys⟩
    rw [List.foldl_cons]
    refine ⟨⟨k0, p0⟩, w, ?_, gw, ?_, rfl, ?_⟩
    · rw [g1, r02]
      simp [mapGet]
    · rw [gkeys]
      have hnc : ¬ (mapContains (process_product
          (⟨[], ld, gd, md,
            ((mapKeys gd.price_accounts ++ mapKeys md.price_accounts_metadata)
              ++ (mapKeys ld).map pubkey_new_from_array).dedup,
            k0 :: rest, []⟩ : BuildState) k0).ret (S ++ " (duplicate)") = true) := by
        rw [r02]
        simp [mapContains, hSd]
      rw [if_neg hnc, r02]
      rfl
    · cases rest with
      | nil => exact absurd rfl hrestne
      | cons r1 r2 =>
        rw [List.getLast?_cons_cons]
        exact glast

/-- Witness for C9: three products named `"ETH/USD"` yield two entries, the
suffixed one holding the last processed product (key `3`). -/
theorem triple_collision_instance :
    ∃ v w : DashboardSymbolView,
      mapGet (build_dashboard_data [] emptyAccountsData mdThreeEth [1, 2, 3]).ret
        "ETH/USD" = some v
      ∧ mapGet (build_dashboard_data [] emptyAccountsData mdThreeEth [1, 2, 3]).ret
        ("ETH/USD" ++ " (duplicate)") = some w
      ∧ (mapKeys (build_dashboard_data [] emptyAccountsData mdThreeEth
          [1, 2, 3]).ret).length = 2
      ∧ ([1, 2, 3] : List Pubkey).head? = some v.product
      ∧ ([1, 2, 3] : List Pubkey).getLast? = some w.product :=
  triple_collision_keeps_two_entries_last_wins [] emptyAccountsData mdThreeEth [1, 2, 3]
    "ETH/USD" (by decide) (by decide) (fun k => Iff.rfl)
    (fun k hk => by
      simp only [List.mem_cons, List.not_mem_nil, or_false] at hk
      rcases hk with rfl | rfl | rfl <;> exact ⟨ethMeta, by decide, by decide⟩)

/-- C10 (implicit): with the iteration set drawn from the metadata snapshot's own
product keys (each key visited once), the per-product metadata lookup always
succeeds — the missing-metadata warning branch is unreachable — and every product
key is consumed, so the orphan warning can only ever list price keys, never
product keys. -/
theorem product_metadata_lookup_always_succeeds_no_product_orphans
    (local_data : Map PriceIdentifier PriceInfo) (global_data : AllAccountsData)
    (global_metadata : AllAccountsMetadata) (product_iter : List Pubkey)
    (hn : product_iter.Nodup)
    (he : ∀ k, k ∈ product_iter ↔ k ∈ mapKeys global_metadata.product_accounts_metadata) :
    (build_dashboard_data local_data global_data global_metadata
        product_iter).missing_products = []
    ∧ (build_dashboard_data local_data global_data global_metadata
        product_iter).remaining_product_keys = [] := by
  rw [build_dashboard_data_eq]
  have hp : ∀ k, k ∈ product_iter →
      (mapGet global_metadata.product_accounts_metadata k).isSome = true := by
    intro k hk
    rw [mapGet_isSome_iff_mem_keys]
    exact (he k).mp hk
  rcases fold_products_all_found product_iter
      ⟨[], local_data, global_data, global_metadata,
        ((mapKeys global_data.price_accounts
            ++ mapKeys global_metadata.price_accounts_metadata)
          ++ (mapKeys local_data).map pubkey_new_from_array).dedup,
        product_iter, []⟩ hn hp
    with ⟨h1, h2⟩
  refine ⟨by rw [h1], ?_⟩
  rw [h2]
  exact foldl_erase_self product_iter hn

/-- Witness for C10 at a one-product snapshot. -/
theorem product_metadata_lookup_instance :
    (build_dashboard_data [] orphanAccountsData mdOneProduct [1]).missing_products = []
    ∧ (build_dashboard_data [] orphanAccountsData mdOneProduct
        [1]).remaining_product_keys = [] :=
  product_metadata_lookup_always_succeeds_no_product_orphans [] orphanAccountsData
    mdOneProduct [1] (by decide) (fun k => Iff.rfl)

end PythAgent
